/-
Verification of the OpenMindMap core: the tree model (node collection and its
edit operations), the radial layout engine, the position resolver, branch
deletion, id generation and the import path.  The definitions are a shallow
embedding of the functions in src/src/App.jsx and
src/src/utils/serialization.js; machine floats are modelled as real numbers
and JS objects keyed by node id as association lists where the most recent
assignment is the first entry with a given key.
-/
import Mathlib

set_option maxHeartbeats 1000000

/-! ## Data model -/

/-- A mind-map node: flat record with id, label and parent reference.
A parentId of none models the JS value null. -/
structure Node where
  id : String
  label : String
  parentId : Option String
deriving DecidableEq, Repr

/-- The seed tree from App.jsx (INITIAL_NODES). -/
def INITIAL_NODES : List Node :=
  [⟨"root", "Open Mind Map", none⟩,
   ⟨"node-1", "Idée clé #1", some "root"⟩,
   ⟨"node-2", "Idée clé #2", some "root"⟩]

/-- The ordered children of a parent id.  This is exactly the entry of the
childrenMap built in computeLayout: nodes with a non-null parentId are
grouped by parentId in collection order, which filtering reproduces. -/
def childrenOf (nodes : List Node) (pid : String) : List Node :=
  nodes.filter (fun n => n.parentId = some pid)

/-- Lookup in a JS object modelled as an association list whose most recent
assignment is the first entry carrying the key. -/
def jsGet {α : Type} : List (String × α) → String → Option α
  | [], _ => none
  | kv :: rest, k => if kv.1 = k then some kv.2 else jsGet rest k

/-- The keys of an association list. -/
def keysOf {α : Type} (m : List (String × α)) : List String :=
  m.map Prod.fst

/-! ## Layout engine (computeLayout in App.jsx) -/

/-- LEVEL_SPACING constant from App.jsx. -/
def LEVEL_SPACING : ℝ := 220

/-- A layout position: coordinates plus depth and angular-sector metadata. -/
structure Pos where
  x : ℝ
  y : ℝ
  depth : ℕ
  angleStart : ℝ
  angleEnd : ℝ

/-- The position assigned to the root before the traversal starts. -/
noncomputable def rootLayoutPos : Pos :=
  ⟨0, 0, 0, 0, 2 * Real.pi⟩

/-- The position the traversal writes for child number index out of total
children of a node being expanded with sector [startAngle, endAngle) at
depth depth: the body of the forEach in traverse, factored out so that the
statements can name it. -/
noncomputable def mkChildPos (startAngle endAngle : ℝ) (depth index total : ℕ) : Pos :=
  let childStart := startAngle + (endAngle - startAngle) * index / total
  let childEnd := startAngle + (endAngle - startAngle) * (index + 1) / total
  let angle := (childStart + childEnd) / 2
  let radius := (depth : ℝ) * LEVEL_SPACING
  ⟨Real.cos angle * radius, Real.sin angle * radius, depth, childStart, childEnd⟩

/-- The forEach loop over the children of the node being expanded: writes the
position of each child and recurses into it through expand.  The index
argument carries the forEach index, total the length of the children list. -/
noncomputable def expandChildren
    (expand : String → ℝ → ℝ → ℕ → List (String × Pos) → List (String × Pos))
    (startAngle endAngle : ℝ) (depth total : ℕ) :
    List Node → ℕ → List (String × Pos) → List (String × Pos)
  | [], _, acc => acc
  | child :: rest, index, acc =>
    let p := mkChildPos startAngle endAngle depth index total
    expandChildren expand startAngle endAngle depth total rest (index + 1)
      (expand child.id p.angleStart p.angleEnd (depth + 1) ((child.id, p) :: acc))

/-- The recursive traverse of computeLayout.  The JS recursion is unbounded;
fuel bounds the recursion depth of the embedding, and a fuel of one more
than the collection length is proved sufficient for duplicate-free
collections. -/
noncomputable def traverse (nodes : List Node) :
    ℕ → String → ℝ → ℝ → ℕ → List (String × Pos) → List (String × Pos)
  | 0, _, _, _, _, acc => acc
  | fuel + 1, nodeId, startAngle, endAngle, depth, acc =>
    expandChildren (traverse nodes fuel) startAngle endAngle depth
      (childrenOf nodes nodeId).length (childrenOf nodes nodeId) 0 acc

/-- computeLayout from App.jsx: find the root, seed its position, traverse. -/
noncomputable def computeLayout (nodes : List Node) : List (String × Pos) :=
  match nodes.find? (fun n => n.parentId = none) with
  | none => []
  | some rootNode =>
    traverse nodes (nodes.length + 1) rootNode.id 0 (2 * Real.pi) 1
      [(rootNode.id, rootLayoutPos)]

/-! ## Branch deletion (getBranchToDelete in App.jsx) -/

/-- The forEach over the children of the popped id: any child id not yet in
the deletion set is appended to it and to the list of ids pushed on the
work list in this iteration. -/
def addNewChildren : List Node → List String → List String → List String × List String
  | [], toDelete, pushed => (toDelete, pushed)
  | child :: rest, toDelete, pushed =>
    if child.id ∈ toDelete then addNewChildren rest toDelete pushed
    else addNewChildren rest (toDelete ++ [child.id]) (pushed ++ [child.id])

/-- The while loop of getBranchToDelete.  The stack is kept top-first, the
reverse of the JS array whose end is popped; the ids pushed in one
iteration are therefore reversed before being placed on top.  The loop is
fuel-bounded; a fuel of twice the collection length plus one is proved
sufficient for every input. -/
def getBranchLoop (nodes : List Node) : ℕ → List String → List String → Option (List String)
  | _, [], toDelete => some toDelete
  | 0, _ :: _, _ => none
  | fuel + 1, current :: rest, toDelete =>
    let step := addNewChildren (childrenOf nodes current) toDelete []
    getBranchLoop nodes fuel (step.2.reverse ++ rest) step.1

/-- getBranchToDelete from App.jsx: work-list discovery of the selected id
and all of its transitive descendants.  The default branch of getD is dead
code: the termination theorem shows the loop always returns some. -/
def getBranchToDelete (nodes : List Node) (selectedId : String) : List String :=
  (getBranchLoop nodes (2 * nodes.length + 1) [selectedId] [selectedId]).getD [selectedId]

/-- The number of records whose id is not yet in the deletion set: the
decreasing resource of the work-list loop. -/
def countOutside (nodes : List Node) (S : List String) : ℕ :=
  (nodes.filter (fun n => n.id ∉ S)).length

/-- The child edge relation of a node collection: p has child id c when some
record has parentId p and id c. -/
def childEdge (nodes : List Node) (p c : String) : Prop :=
  ∃ n ∈ nodes, n.parentId = some p ∧ n.id = c

/-- Strict descendant relation: transitive closure of the child edges. -/
def descends (nodes : List Node) : String → String → Prop :=
  Relation.TransGen (childEdge nodes)

/-! ## Id generation (getNextIdFromNodes in App.jsx) -/

/-- Decimal digit character. -/
def digitChar (d : ℕ) : Char := Char.ofNat (48 + d)

/-- Decimal digits of a natural number, most significant first. -/
def natDigits (n : ℕ) : List Char :=
  if h : n < 10 then [digitChar n]
  else natDigits (n / 10) ++ [digitChar (n % 10)]
decreasing_by exact Nat.div_lt_self (by omega) (by omega)

/-- The id string node-v produced by the template literal in addChild. -/
def mkNodeId (v : ℕ) : String := "node-" ++ String.mk (natDigits v)

/-- Numeric value of a digit character. -/
def digitVal (c : Char) : ℕ := c.toNat - 48

/-- parseInt with radix 10 on a captured digit run. -/
def parseDigits (cs : List Char) : ℕ :=
  cs.foldl (fun acc c => acc * 10 + digitVal c) 0

/-- Whether the regex node-(\d+) matches at the start of the character list:
the literal node- followed by at least one digit. -/
def matchesAt : List Char → Bool
  | 'n' :: 'o' :: 'd' :: 'e' :: '-' :: d :: _ => d.isDigit
  | _ => false

/-- First match of the unanchored regex node-(\d+): scan left to right for a
position where the pattern matches, capture the maximal digit run after the
literal, and parse it. -/
def nodeIdNum : List Char → Option ℕ
  | [] => none
  | c :: rest =>
    if matchesAt (c :: rest) then
      some (parseDigits (((c :: rest).drop 5).takeWhile Char.isDigit))
    else nodeIdNum rest

/-- id.match(/node-(\d+)/) followed by parseInt, on a string id. -/
def idMatchNum (s : String) : Option ℕ := nodeIdNum s.data

/-- getNextIdFromNodes from App.jsx.  Ids are strings in the model, so the
typeof guard of the source is always passed. -/
def getNextIdFromNodes (nodes : List Node) : ℕ :=
  (nodes.foldl (fun acc node =>
    match idMatchNum node.id with
    | none => acc
    | some v => max acc v) 0) + 1

/-- Spec-side reading of the scan: the maximum of the numeric suffixes of
the ids the pattern matches, as a fold over the list of matched values. -/
def specMaxSuffix (nodes : List Node) : ℕ :=
  (nodes.filterMap (fun node => idMatchNum node.id)).foldr max 0

/-! ## Application state and edit operations -/

/-- A custom position override: coordinates only, exactly the object written
by the drag handler. -/
structure XY where
  x : ℝ
  y : ℝ

/-- The application state the claims range over: the node collection, the
custom position overrides, the selection and the id counter ref. -/
structure AppState where
  nodes : List Node
  customPositions : List (String × XY)
  selectedId : String
  idCounter : ℕ

/-- rootNode from App.jsx: first node with null parentId. -/
def rootNodeOf (nodes : List Node) : Option Node :=
  nodes.find? (fun n => n.parentId = none)

/-- selectedNode from App.jsx: the node with the selected id, else the root. -/
def selectedNodeOf (s : AppState) : Option Node :=
  match s.nodes.find? (fun n => n.id = s.selectedId) with
  | some n => some n
  | none => rootNodeOf s.nodes

/-- addChild from App.jsx.  The draft-label update is UI state outside the
model. -/
def addChild (s : AppState) : AppState :=
  match selectedNodeOf s with
  | none => s
  | some selectedNode =>
    let newNode : Node := ⟨mkNodeId s.idCounter, "", some selectedNode.id⟩
    { s with
      nodes := s.nodes ++ [newNode]
      idCounter := s.idCounter + 1
      selectedId := newNode.id }

/-- removeSelectedBranch from App.jsx.  The loop deleting every id of
toDelete from the overrides object leaves exactly the entries whose key is
not in toDelete, which the filter expresses. -/
def removeSelectedBranch (s : AppState) : AppState :=
  match selectedNodeOf s with
  | none => s
  | some selectedNode =>
    if (rootNodeOf s.nodes).map Node.id = some selectedNode.id then s
    else
      let toDelete := getBranchToDelete s.nodes selectedNode.id
      { s with
        nodes := s.nodes.filter (fun n => n.id ∉ toDelete)
        customPositions := s.customPositions.filter (fun kv => kv.1 ∉ toDelete)
        selectedId :=
          match rootNodeOf s.nodes with
          | some r => r.id
          | none => s.selectedId }

/-- addChild applied to a chosen parent: the UI selects the parent, then the
add-child action runs. -/
def addChildOn (s : AppState) (pid : String) : AppState :=
  addChild { s with selectedId := pid }

/-- deleteBranch applied to a chosen node: the UI selects it, then the
remove-branch action runs. -/
def deleteBranchOn (s : AppState) (x : String) : AppState :=
  removeSelectedBranch { s with selectedId := x }

/-- One edit operation: an addChild on some parent or a deleteBranch on some
node. -/
inductive EditStep : AppState → AppState → Prop
  | add (s : AppState) (pid : String) : EditStep s (addChildOn s pid)
  | del (s : AppState) (x : String) : EditStep s (deleteBranchOn s x)

/-- Number of roots in a collection. -/
def rootCount (nodes : List Node) : ℕ :=
  nodes.countP (fun n => n.parentId = none)

/-- A valid application state: a single root, duplicate-free ids, and an id
counter strictly above every numeric suffix occurring in an id (the seeding
invariant established by getNextIdFromNodes). -/
abbrev ValidState (s : AppState) : Prop :=
  rootCount s.nodes = 1 ∧ (s.nodes.map Node.id).Nodup ∧
    ∀ n ∈ s.nodes, (idMatchNum n.id).getD 0 < s.idCounter

/-- k successive addChild calls, each on a parent existing at call time. -/
inductive AddSeq : AppState → ℕ → AppState → Prop
  | nil (s : AppState) : AddSeq s 0 s
  | snoc (s : AppState) (k : ℕ) (t : AppState) (pid : String) :
      AddSeq s k t → pid ∈ t.nodes.map Node.id → AddSeq s (k + 1) (addChildOn t pid)

/-! ## Position resolver (the positions useMemo in App.jsx) -/

/-- A resolved position: coordinates, with the layout metadata present only
when a layout position contributed to the merge, mirroring the field set of
the JS object produced by the spreads. -/
structure RPos where
  x : ℝ
  y : ℝ
  depth : Option ℕ
  angleStart : Option ℝ
  angleEnd : Option ℝ

/-- A layout position used verbatim. -/
def posToRPos (p : Pos) : RPos :=
  ⟨p.x, p.y, some p.depth, some p.angleStart, some p.angleEnd⟩

/-- A custom override used verbatim: no layout metadata. -/
def xyToRPos (c : XY) : RPos :=
  ⟨c.x, c.y, none, none, none⟩

/-- The spread merge of a layout position and an override: the override
coordinates over the layout metadata. -/
def mergeLayoutCustom (l : Pos) (c : XY) : RPos :=
  ⟨c.x, c.y, some l.depth, some l.angleStart, some l.angleEnd⟩

/-- The merge rule applied to one node of the collection. -/
def mergeEntry (layoutm : List (String × Pos)) (customm : List (String × XY))
    (node : Node) : Option RPos :=
  match jsGet layoutm node.id, jsGet customm node.id with
  | some l, some c => some (mergeLayoutCustom l c)
  | some l, none => some (posToRPos l)
  | none, some c => some (xyToRPos c)
  | none, none => none

/-- One step of the forEach of the positions useMemo: assign the merge
result of the node into the output object, or leave it unchanged when the
node has neither source. -/
def mergeStep (layoutm : List (String × Pos)) (customm : List (String × XY))
    (merged : List (String × RPos)) (node : Node) : List (String × RPos) :=
  match mergeEntry layoutm customm node with
  | some v => (node.id, v) :: merged
  | none => merged

/-- The positions useMemo: walk the collection in order and assign the merge
result of each node into the output object. -/
def mergedPositions (nodes : List Node) (layoutm : List (String × Pos))
    (customm : List (String × XY)) : List (String × RPos) :=
  nodes.foldl (mergeStep layoutm customm) []

/-! ## Import path (handleFileChange in App.jsx, serialization.js) -/

/-- A raw imported record: each field may be absent.  For parentId, none is
an absent field (undefined), some none is null, some (some p) a string. -/
structure RawNode where
  id : Option String
  label : Option String
  parentId : Option (Option String)
deriving DecidableEq, Repr

/-- The record mapping of handleFileChange: a shallow copy of each record,
with no substitution of defaults. -/
def importNodes (raws : List RawNode) : List RawNode :=
  raws.map (fun r => r)

/-- Root finding over raw records, the test parentId === null used both by
handleFileChange and by computeLayout: only a field holding null matches. -/
def findRootRaw (raws : List RawNode) : Option RawNode :=
  raws.find? (fun r => r.parentId = some none)

/-- Modelled from the spec claim wording, not from the source: the per-record
defaulting the claim asserts the import performs, an empty string for a
missing label and null for a missing parentId. -/
def claimDefaultedRecord (r : RawNode) : RawNode :=
  ⟨r.id, some (r.label.getD ""), some (r.parentId.getD none)⟩

/-- A raw tree node of serialization.js: id, label and a children list that
may be absent or invalid. -/
inductive RawTree where
  | mk (id : Option String) (label : Option String) (children : Option (List RawTree))

/-- A normalised tree node of serialization.js. -/
inductive NTree where
  | mk (id : String) (label : String) (children : List NTree)

mutual

/-- normaliseNode from serialization.js: String(node.id ?? ""), String(
node.label ?? ""), and the recursive map over ensureArray(node.children);
the two cases of ensureArray are inlined for the termination checker. -/
def normaliseNode : RawTree → NTree
  | RawTree.mk i l none => NTree.mk (i.getD "") (l.getD "") []
  | RawTree.mk i l (some cs) => NTree.mk (i.getD "") (l.getD "") (normaliseChildren cs)

/-- The map of normaliseNode over a children list. -/
def normaliseChildren : List RawTree → List NTree
  | [] => []
  | t :: ts => normaliseNode t :: normaliseChildren ts

end

/-- A concrete application state used to instantiate theorems: the seed tree
with its seeded counter. -/
def demoState : AppState :=
  ⟨INITIAL_NODES, [], "root", 3⟩

/-- A concrete application state with a custom override on node-1, used to
instantiate theorems. -/
def demoStateOv : AppState :=
  ⟨INITIAL_NODES, [("node-1", ⟨5, 6⟩)], "root", 3⟩

/-- A small concrete layout map used to instantiate theorems. -/
def demoLayoutMap : List (String × Pos) :=
  [("root", ⟨1, 2, 0, 0, 1⟩)]

/-- A small concrete override map used to instantiate theorems. -/
def demoCustomMap : List (String × XY) :=
  [("root", ⟨7, 8⟩)]

/-! ## Association list lemmas -/

theorem jsGet_mem {α : Type} {m : List (String × α)} {k : String} {v : α}
    (h : jsGet m k = some v) : (k, v) ∈ m := by
  induction m with
  | nil => simp [jsGet] at h
  | cons kv rest ih =>
    simp only [jsGet] at h
    by_cases hk : kv.1 = k
    · rw [if_pos hk] at h
      injection h with h
      subst hk h
      exact List.mem_cons_self _ _
    · rw [if_neg hk] at h
      exact List.mem_cons_of_mem _ (ih h)

theorem keysOf_cons {α : Type} (kv : String × α) (rest : List (String × α)) :
    keysOf (kv :: rest) = kv.1 :: keysOf rest := rfl

theorem jsGet_of_not_mem_keys {α : Type} {m : List (String × α)} {k : String}
    (h : k ∉ keysOf m) : jsGet m k = none := by
  induction m with
  | nil => rfl
  | cons kv rest ih =>
    rw [keysOf_cons, List.mem_cons] at h
    push_neg at h
    have h1 : kv.1 ≠ k := fun hh => h.1 hh.symm
    simp only [jsGet, if_neg h1]
    exact ih h.2

theorem jsGet_of_mem_of_nodupKeys {α : Type} {m : List (String × α)} {k : String} {v : α}
    (hnd : (keysOf m).Nodup) (h : (k, v) ∈ m) : jsGet m k = some v := by
  induction m with
  | nil => simp at h
  | cons kv rest ih =>
    simp only [keysOf, List.map_cons, List.nodup_cons] at hnd
    rcases List.mem_cons.mp h with h | h
    · subst h
      simp [jsGet]
    · have hk : kv.1 ≠ k := by
        intro hk
        exact hnd.1 (hk ▸ List.mem_map_of_mem Prod.fst h)
      simp only [jsGet, if_neg hk]
      exact ih hnd.2 h

theorem jsGet_append_left {α : Type} {m₁ : List (String × α)} (m₂ : List (String × α))
    {k : String} {v : α} (h : jsGet m₁ k = some v) : jsGet (m₁ ++ m₂) k = some v := by
  induction m₁ with
  | nil => simp [jsGet] at h
  | cons kv rest ih =>
    simp only [jsGet] at h ⊢
    by_cases hk : kv.1 = k
    · rwa [if_pos hk] at h ⊢
    · rw [if_neg hk] at h ⊢
      exact ih h

theorem jsGet_append_right {α : Type} {m₁ : List (String × α)} (m₂ : List (String × α))
    {k : String} (h : jsGet m₁ k = none) : jsGet (m₁ ++ m₂) k = jsGet m₂ k := by
  induction m₁ with
  | nil => rfl
  | cons kv rest ih =>
    simp only [jsGet] at h ⊢
    by_cases hk : kv.1 = k
    · rw [if_pos hk] at h; cases h
    · rw [if_neg hk] at h ⊢
      exact ih h

theorem keysOf_append {α : Type} (m₁ m₂ : List (String × α)) :
    keysOf (m₁ ++ m₂) = keysOf m₁ ++ keysOf m₂ := by
  simp [keysOf]

/-! ## Position resolver lemmas -/

theorem mergeFold_untouched (layoutm : List (String × Pos)) (customm : List (String × XY))
    {k : String} :
    ∀ (nodes : List Node) (acc : List (String × RPos)), k ∉ nodes.map Node.id →
      jsGet (nodes.foldl (mergeStep layoutm customm) acc) k = jsGet acc k := by
  intro nodes
  induction nodes with
  | nil => intro acc _; rfl
  | cons n rest ih =>
    intro acc hk
    simp only [List.map_cons, List.mem_cons] at hk
    push_neg at hk
    rw [List.foldl_cons, ih _ hk.2]
    unfold mergeStep
    cases mergeEntry layoutm customm n with
    | none => rfl
    | some v =>
      have h1 : n.id ≠ k := fun h => hk.1 h.symm
      simp [jsGet, if_neg h1]

theorem mergeFold_assigned (layoutm : List (String × Pos)) (customm : List (String × XY))
    {n : Node} :
    ∀ (nodes : List Node) (acc : List (String × RPos)),
      (nodes.map Node.id).Nodup → n ∈ nodes → jsGet acc n.id = none →
      jsGet (nodes.foldl (mergeStep layoutm customm) acc) n.id =
        mergeEntry layoutm customm n := by
  intro nodes
  induction nodes with
  | nil => intro acc _ h; simp at h
  | cons m rest ih =>
    intro acc hnd hn hacc
    simp only [List.map_cons, List.nodup_cons] at hnd
    rcases List.mem_cons.mp hn with rfl | hn
    · rw [List.foldl_cons, mergeFold_untouched layoutm customm rest _ hnd.1]
      unfold mergeStep
      cases h : mergeEntry layoutm customm n with
      | none => exact hacc
      | some v => simp [jsGet]
    · have hne : m.id ≠ n.id := by
        intro h
        exact hnd.1 (h ▸ List.mem_map_of_mem Node.id hn)
      rw [List.foldl_cons]
      refine ih _ hnd.2 hn ?_
      unfold mergeStep
      cases mergeEntry layoutm customm m with
      | none => exact hacc
      | some v =>
        simp only [jsGet, if_neg hne]
        exact hacc

/-- C3: the Position Resolver merge rule, per node of the collection: with
both sources present the resolved entry takes the override coordinates and
the layout metadata; with only a layout position it is used unchanged; with
only an override it is used verbatim with no metadata; with neither, the
node has no entry in the resolved map. -/
theorem resolver_merge_rule (nodes : List Node) (layoutm : List (String × Pos))
    (customm : List (String × XY)) (hnd : (nodes.map Node.id).Nodup)
    (n : Node) (hn : n ∈ nodes) :
    (∀ l c, jsGet layoutm n.id = some l → jsGet customm n.id = some c →
        jsGet (mergedPositions nodes layoutm customm) n.id =
          some ⟨c.x, c.y, some l.depth, some l.angleStart, some l.angleEnd⟩) ∧
    (∀ l, jsGet layoutm n.id = some l → jsGet customm n.id = none →
        jsGet (mergedPositions nodes layoutm customm) n.id = some (posToRPos l)) ∧
    (∀ c, jsGet layoutm n.id = none → jsGet customm n.id = some c →
        jsGet (mergedPositions nodes layoutm customm) n.id = some (xyToRPos c)) ∧
    (jsGet layoutm n.id = none → jsGet customm n.id = none →
        jsGet (mergedPositions nodes layoutm customm) n.id = none) := by
  have key : jsGet (mergedPositions nodes layoutm customm) n.id =
      mergeEntry layoutm customm n :=
    mergeFold_assigned layoutm customm nodes [] hnd hn rfl
  refine ⟨?_, ?_, ?_, ?_⟩
  · intro l c hl hc
    rw [key]
    unfold mergeEntry
    rw [hl, hc]
    rfl
  · intro l hl hc
    rw [key]
    unfold mergeEntry
    rw [hl, hc]
  · intro c hl hc
    rw [key]
    unfold mergeEntry
    rw [hl, hc]
  · intro hl hc
    rw [key]
    unfold mergeEntry
    rw [hl, hc]

/-- Witness for C3 at a concrete state: the root of the seed tree carries
both a layout position and an override. -/
theorem resolver_merge_rule_witness :
    ((List.map Node.id INITIAL_NODES).Nodup ∧
      (⟨"root", "Open Mind Map", none⟩ : Node) ∈ INITIAL_NODES) ∧
    (∀ l c, jsGet demoLayoutMap "root" = some l → jsGet demoCustomMap "root" = some c →
        jsGet (mergedPositions INITIAL_NODES demoLayoutMap demoCustomMap) "root" =
          some ⟨c.x, c.y, some l.depth, some l.angleStart, some l.angleEnd⟩) ∧
    (∀ l, jsGet demoLayoutMap "root" = some l → jsGet demoCustomMap "root" = none →
        jsGet (mergedPositions INITIAL_NODES demoLayoutMap demoCustomMap) "root" =
          some (posToRPos l)) ∧
    (∀ c, jsGet demoLayoutMap "root" = none → jsGet demoCustomMap "root" = some c →
        jsGet (mergedPositions INITIAL_NODES demoLayoutMap demoCustomMap) "root" =
          some (xyToRPos c)) ∧
    (jsGet demoLayoutMap "root" = none → jsGet demoCustomMap "root" = none →
        jsGet (mergedPositions INITIAL_NODES demoLayoutMap demoCustomMap) "root" = none) :=
  ⟨⟨by decide, by decide⟩,
    resolver_merge_rule INITIAL_NODES demoLayoutMap demoCustomMap (by decide)
      ⟨"root", "Open Mind Map", none⟩ (by decide)⟩

/-- C10: every key of the resolved position map is the id of a node of the
current collection, so a stale override never leaks into the merged
output. -/
theorem resolver_keys_subset (nodes : List Node) (layoutm : List (String × Pos))
    (customm : List (String × XY)) (k : String)
    (hk : k ∈ keysOf (mergedPositions nodes layoutm customm)) :
    k ∈ nodes.map Node.id := by
  have main : ∀ (l : List Node) (acc : List (String × RPos)),
      k ∈ keysOf (l.foldl (mergeStep layoutm customm) acc) →
      k ∈ keysOf acc ∨ k ∈ l.map Node.id := by
    intro l
    induction l with
    | nil => intro acc h; exact Or.inl h
    | cons m rest ih =>
      intro acc h
      rw [List.foldl_cons] at h
      rcases ih _ h with h | h
      · unfold mergeStep at h
        cases hme : mergeEntry layoutm customm m with
        | none =>
          rw [hme] at h
          exact Or.inl h
        | some v =>
          rw [hme] at h
          rw [keysOf_cons] at h
          rcases List.mem_cons.mp h with h | h
          · exact Or.inr (by rw [h]; exact List.mem_cons_self _ _)
          · exact Or.inl h
      · exact Or.inr (List.mem_cons_of_mem _ h)
  rcases main nodes [] hk with h | h
  · cases h
  · exact h

/-- Witness for C10: a key present in the resolved map of the seed tree is
the id of a node of the seed tree. -/
theorem resolver_keys_subset_witness :
    "root" ∈ keysOf (mergedPositions INITIAL_NODES demoLayoutMap demoCustomMap) ∧
      "root" ∈ INITIAL_NODES.map Node.id :=
  ⟨by decide, resolver_keys_subset INITIAL_NODES demoLayoutMap demoCustomMap "root" (by decide)⟩

/-! ## Digit and id lemmas -/

theorem digitVal_digitChar {d : ℕ} (h : d < 10) : digitVal (digitChar d) = d := by
  interval_cases d <;> decide

theorem isDigit_digitChar {d : ℕ} (h : d < 10) : (digitChar d).isDigit = true := by
  interval_cases d <;> decide

theorem natDigits_ne_nil (n : ℕ) : natDigits n ≠ [] := by
  rw [natDigits]
  split
  · simp
  · simp

theorem natDigits_all_digits (n : ℕ) : ∀ c ∈ natDigits n, c.isDigit = true := by
  induction n using Nat.strong_induction_on with
  | _ n ih =>
    rw [natDigits]
    split
    · intro c hc
      rw [List.mem_singleton] at hc
      subst hc
      exact isDigit_digitChar (by omega)
    · intro c hc
      rcases List.mem_append.mp hc with hc | hc
      · exact ih (n / 10) (Nat.div_lt_self (by omega) (by omega)) c hc
      · rw [List.mem_singleton] at hc
        subst hc
        exact isDigit_digitChar (Nat.mod_lt _ (by omega))

theorem parseDigits_append (cs : List Char) (c : Char) :
    parseDigits (cs ++ [c]) = parseDigits cs * 10 + digitVal c := by
  unfold parseDigits
  rw [List.foldl_append]
  rfl

theorem parseDigits_natDigits (n : ℕ) : parseDigits (natDigits n) = n := by
  induction n using Nat.strong_induction_on with
  | _ n ih =>
    rw [natDigits]
    split
    · rename_i h
      show parseDigits [digitChar n] = n
      unfold parseDigits
      simp [digitVal_digitChar h]
    · rename_i h
      rw [parseDigits_append, ih (n / 10) (Nat.div_lt_self (by omega) (by omega)),
        digitVal_digitChar (Nat.mod_lt _ (by omega))]
      omega

theorem mkNodeId_data (v : ℕ) :
    (mkNodeId v).data = 'n' :: 'o' :: 'd' :: 'e' :: '-' :: natDigits v := by
  unfold mkNodeId
  rw [String.data_append]
  rfl

theorem idMatchNum_mkNodeId (v : ℕ) : idMatchNum (mkNodeId v) = some v := by
  unfold idMatchNum
  rw [mkNodeId_data]
  cases hd : natDigits v with
  | nil => exact absurd hd (natDigits_ne_nil v)
  | cons c cs =>
    have hdig : c.isDigit = true := by
      have := natDigits_all_digits v
      rw [hd] at this
      exact this c (List.mem_cons_self _ _)
    have hmatch : matchesAt ('n' :: 'o' :: 'd' :: 'e' :: '-' :: c :: cs) = true := by
      unfold matchesAt
      exact hdig
    unfold nodeIdNum
    rw [if_pos hmatch]
    have htake : (c :: cs).takeWhile Char.isDigit = c :: cs := by
      rw [List.takeWhile_eq_self_iff]
      intro a ha
      have := natDigits_all_digits v
      rw [hd] at this
      exact this a ha
    simp only [List.drop_succ_cons, List.drop_zero, htake]
    rw [← hd, parseDigits_natDigits]

theorem mkNodeId_inj {a b : ℕ} (h : mkNodeId a = mkNodeId b) : a = b := by
  have ha := idMatchNum_mkNodeId a
  rw [h, idMatchNum_mkNodeId b] at ha
  injection ha with ha
  exact ha.symm

/-! ## Id scan lemmas -/

theorem foldMax_eq (nodes : List Node) :
    ∀ a : ℕ,
      nodes.foldl (fun acc node =>
        match idMatchNum node.id with
        | none => acc
        | some v => max acc v) a = max a (specMaxSuffix nodes) := by
  induction nodes with
  | nil => intro a; simp [specMaxSuffix]
  | cons m rest ih =>
    intro a
    rw [List.foldl_cons]
    cases hm : idMatchNum m.id with
    | none =>
      simp only
      rw [ih a]
      unfold specMaxSuffix
      simp only [List.filterMap_cons, hm]
    | some v =>
      simp only
      rw [ih (max a v)]
      unfold specMaxSuffix
      simp only [List.filterMap_cons, hm, List.foldr_cons]
      omega

theorem getNextIdFromNodes_eq (nodes : List Node) :
    getNextIdFromNodes nodes = specMaxSuffix nodes + 1 := by
  unfold getNextIdFromNodes
  rw [foldMax_eq nodes 0]
  omega

theorem le_specMaxSuffix {nodes : List Node} {n : Node} (hn : n ∈ nodes) :
    (idMatchNum n.id).getD 0 ≤ specMaxSuffix nodes := by
  cases hm : idMatchNum n.id with
  | none => exact Nat.zero_le _
  | some v =>
    have hv : v ∈ nodes.filterMap (fun node => idMatchNum node.id) :=
      List.mem_filterMap.mpr ⟨n, hn, hm⟩
    simp only [Option.getD_some]
    unfold specMaxSuffix
    clear hm hn
    generalize List.filterMap (fun node => idMatchNum node.id) nodes = l at hv ⊢
    induction l with
    | nil => cases hv
    | cons b rest ih =>
      rw [List.foldr_cons]
      rcases List.mem_cons.mp hv with rfl | hv
      · omega
      · have := ih hv
        omega

theorem seeded_counter_fresh {nodes : List Node} {n : Node} (hn : n ∈ nodes) :
    (idMatchNum n.id).getD 0 < getNextIdFromNodes nodes := by
  rw [getNextIdFromNodes_eq]
  have := le_specMaxSuffix hn
  omega

theorem fresh_id_not_mem {nodes : List Node} {c v : ℕ}
    (hfresh : ∀ n ∈ nodes, (idMatchNum n.id).getD 0 < c) (hv : c ≤ v) :
    mkNodeId v ∉ nodes.map Node.id := by
  intro hmem
  rcases List.mem_map.mp hmem with ⟨n, hn, hid⟩
  have := hfresh n hn
  rw [hid, idMatchNum_mkNodeId] at this
  simp only [Option.getD_some] at this
  omega

/-! ## addChild lemmas -/

theorem addChildOn_fires {s : AppState} {pid : String}
    (hpid : pid ∈ s.nodes.map Node.id) :
    addChildOn s pid =
      { nodes := s.nodes ++ [⟨mkNodeId s.idCounter, "", some pid⟩]
        customPositions := s.customPositions
        selectedId := mkNodeId s.idCounter
        idCounter := s.idCounter + 1 } := by
  rcases List.mem_map.mp hpid with ⟨q, hq, hqid⟩
  unfold addChildOn addChild selectedNodeOf
  simp only
  cases hfind : List.find? (fun n => n.id = pid) s.nodes with
  | none =>
    exfalso
    have := List.find?_eq_none.mp hfind q hq
    simp [hqid] at this
  | some r =>
    have hr : r.id = pid := by
      have := List.find?_some hfind
      simpa using this
    simp only [hr]

theorem addChildOn_nodes_cases (s : AppState) (pid : String) :
    (addChildOn s pid).nodes = s.nodes ∨
      ∃ p ∈ s.nodes, (addChildOn s pid).nodes =
        s.nodes ++ [⟨mkNodeId s.idCounter, "", some p.id⟩] := by
  unfold addChildOn addChild
  cases hsel : selectedNodeOf { s with selectedId := pid } with
  | none => exact Or.inl rfl
  | some q =>
    refine Or.inr ⟨q, ?_, rfl⟩
    unfold selectedNodeOf at hsel
    simp only at hsel
    cases hfind : List.find? (fun n => n.id = pid) s.nodes with
    | none =>
      rw [hfind] at hsel
      unfold rootNodeOf at hsel
      exact List.mem_of_find?_eq_some hsel
    | some r =>
      rw [hfind] at hsel
      cases hsel
      exact List.mem_of_find?_eq_some hfind

theorem addSeq_spec {s : AppState} {k : ℕ} {t : AppState} (hseq : AddSeq s k t)
    (hfresh : ∀ n ∈ s.nodes, (idMatchNum n.id).getD 0 < s.idCounter) :
    t.idCounter = s.idCounter + k ∧
    t.customPositions = s.customPositions ∧
    (∀ n ∈ t.nodes, (idMatchNum n.id).getD 0 < t.idCounter) ∧
    ∃ newNodes : List Node,
      t.nodes = s.nodes ++ newNodes ∧
      newNodes.map Node.id =
        (List.range k).map (fun j => mkNodeId (s.idCounter + j)) := by
  induction hseq with
  | nil => exact ⟨rfl, rfl, hfresh, [], by simp⟩
  | snoc k t pid hseq hpid ih =>
    obtain ⟨hcount, hcustom, hfresh2, newNodes, hnodes, hids⟩ := ih
    rw [addChildOn_fires hpid]
    refine ⟨by show t.idCounter + 1 = s.idCounter + (k + 1); omega,
      by show t.customPositions = s.customPositions; exact hcustom, ?_, newNodes ++ [⟨mkNodeId t.idCounter, "", some pid⟩], ?_, ?_⟩
    · intro n hn
      simp only [List.mem_append, List.mem_singleton] at hn
      rcases hn with hn | rfl
      · have := hfresh2 n hn
        simp only
        omega
      · simp [idMatchNum_mkNodeId]
    · simp [hnodes]
    · simp only [List.map_append, hids, hcount, List.range_succ, List.map_map]
      rfl

/-- C4: starting from a state whose counter carries the seeding-scan value,
k successive addChild calls on existing parents append exactly k new nodes
whose ids are node-(m+1) ... node-(m+k) in call order, where m is the
maximum numeric suffix matched in the existing ids; the new ids are
pairwise distinct and distinct from every pre-existing id; and the seeding
scan itself returns the maximum matched suffix plus one, or 1 when no id
matches the pattern. -/
theorem addChild_id_sequence (s : AppState) (k : ℕ) (t : AppState)
    (hseed : s.idCounter = getNextIdFromNodes s.nodes) (hseq : AddSeq s k t) :
    (∃ newNodes : List Node,
        t.nodes = s.nodes ++ newNodes ∧ newNodes.length = k ∧
        newNodes.map Node.id =
          (List.range k).map (fun j => mkNodeId (specMaxSuffix s.nodes + 1 + j)) ∧
        (newNodes.map Node.id).Nodup ∧
        ∀ x ∈ newNodes.map Node.id, x ∉ s.nodes.map Node.id) ∧
    getNextIdFromNodes s.nodes = specMaxSuffix s.nodes + 1 ∧
    ((∀ n ∈ s.nodes, idMatchNum n.id = none) → getNextIdFromNodes s.nodes = 1) := by
  have hfresh : ∀ n ∈ s.nodes, (idMatchNum n.id).getD 0 < s.idCounter := by
    rw [hseed]
    intro n hn
    exact seeded_counter_fresh hn
  obtain ⟨hcount, hcustom, hfresh2, newNodes, hnodes, hids⟩ := addSeq_spec hseq hfresh
  have hc : s.idCounter = specMaxSuffix s.nodes + 1 := by
    rw [hseed, getNextIdFromNodes_eq]
  refine ⟨⟨newNodes, hnodes, ?_, ?_, ?_, ?_⟩, getNextIdFromNodes_eq s.nodes, ?_⟩
  · have := congrArg List.length hids
    simpa using this
  · rw [hids, hc]
  · rw [hids]
    refine List.Nodup.map ?_ (List.nodup_range _)
    intro a b h
    have := mkNodeId_inj h
    omega
  · intro x hx
    rw [hids] at hx
    rcases List.mem_map.mp hx with ⟨j, _, rfl⟩
    exact fresh_id_not_mem hfresh (Nat.le_add_right _ _)
  · intro hall
    rw [getNextIdFromNodes_eq]
    unfold specMaxSuffix
    rw [List.filterMap_eq_nil_iff.mpr hall]
    rfl

/-- Witness for C4: one addChild on the root of the seeded demo state. -/
theorem addChild_id_sequence_witness :
    demoState.idCounter = getNextIdFromNodes demoState.nodes ∧
    ((∃ newNodes : List Node,
        (addChildOn demoState "root").nodes = demoState.nodes ++ newNodes ∧
        newNodes.length = 1 ∧
        newNodes.map Node.id =
          (List.range 1).map (fun j => mkNodeId (specMaxSuffix demoState.nodes + 1 + j)) ∧
        (newNodes.map Node.id).Nodup ∧
        ∀ x ∈ newNodes.map Node.id, x ∉ demoState.nodes.map Node.id) ∧
      getNextIdFromNodes demoState.nodes = specMaxSuffix demoState.nodes + 1 ∧
      ((∀ n ∈ demoState.nodes, idMatchNum n.id = none) →
        getNextIdFromNodes demoState.nodes = 1)) :=
  ⟨by decide,
    addChild_id_sequence demoState 1 (addChildOn demoState "root") (by decide)
      (AddSeq.snoc demoState 0 demoState "root" (AddSeq.nil demoState) (by decide))⟩

/-! ## Work-list lemmas -/

theorem getBranchLoop_nil (nodes : List Node) (fuel : ℕ) (td : List String) :
    getBranchLoop nodes fuel [] td = some td := by
  cases fuel <;> rfl

theorem getBranchLoop_zero (nodes : List Node) (c : String) (rest td : List String) :
    getBranchLoop nodes 0 (c :: rest) td = none := rfl

theorem getBranchLoop_succ (nodes : List Node) (fuel : ℕ) (c : String)
    (rest td : List String) :
    getBranchLoop nodes (fuel + 1) (c :: rest) td =
      getBranchLoop nodes fuel
        ((addNewChildren (childrenOf nodes c) td []).2.reverse ++ rest)
        (addNewChildren (childrenOf nodes c) td []).1 := rfl

theorem addNewChildren_spec : ∀ (cs : List Node) (td p : List String),
    ∃ q : List String, addNewChildren cs td p = (td ++ q, p ++ q) ∧ q.Nodup ∧
      (∀ x ∈ q, x ∉ td ∧ ∃ c ∈ cs, c.id = x) ∧
      (∀ c ∈ cs, c.id ∈ td ++ q) := by
  intro cs
  induction cs with
  | nil =>
    intro td p
    exact ⟨[], by simp [addNewChildren], List.nodup_nil, by simp, by simp⟩
  | cons c rest ih =>
    intro td p
    by_cases hc : c.id ∈ td
    · obtain ⟨q, heq, hnd, hq, hcl⟩ := ih td p
      refine ⟨q, ?_, hnd, ?_, ?_⟩
      · rw [addNewChildren, if_pos hc]
        exact heq
      · intro x hx
        obtain ⟨h1, cc, hcc, h3⟩ := hq x hx
        exact ⟨h1, cc, List.mem_cons_of_mem _ hcc, h3⟩
      · intro d hd
        rcases List.mem_cons.mp hd with rfl | hd
        · exact List.mem_append_left _ hc
        · exact hcl d hd
    · obtain ⟨q, heq, hnd, hq, hcl⟩ := ih (td ++ [c.id]) (p ++ [c.id])
      refine ⟨c.id :: q, ?_, ?_, ?_, ?_⟩
      · rw [addNewChildren, if_neg hc, heq]
        simp
      · refine List.nodup_cons.mpr ⟨?_, hnd⟩
        intro hmem
        have := (hq _ hmem).1
        simp at this
      · intro x hx
        rcases List.mem_cons.mp hx with rfl | hx
        · exact ⟨hc, c, List.mem_cons_self _ _, rfl⟩
        · obtain ⟨h1, cc, hcc, h3⟩ := hq x hx
          exact ⟨fun hh => h1 (List.mem_append_left _ hh), cc,
            List.mem_cons_of_mem _ hcc, h3⟩
      · intro d hd
        rcases List.mem_cons.mp hd with rfl | hd
        · simp
        · have := hcl d hd
          simp only [List.mem_append, List.mem_singleton, List.mem_cons] at this ⊢
          tauto

theorem countOutside_append_le (nodes : List Node) (S : List String) (x : String) :
    countOutside nodes (S ++ [x]) ≤ countOutside nodes S := by
  induction nodes with
  | nil => exact Nat.le_refl _
  | cons m rest ih =>
    unfold countOutside at ih ⊢
    simp only [List.filter_cons]
    by_cases hmx : m.id ∈ S ++ [x] <;> by_cases hm : m.id ∈ S
    · rw [if_neg (by simp [hmx]), if_neg (by simp [hm])]
      exact ih
    · rw [if_neg (by simp [hmx]), if_pos (by simp [hm])]
      simp only [List.length_cons]
      omega
    · exact absurd (List.mem_append_left _ hm) hmx
    · rw [if_pos (by simp [hmx]), if_pos (by simp [hm])]
      simp only [List.length_cons]
      omega

theorem countOutside_append_lt {nodes : List Node} {S : List String} {x : String}
    (hx : ∃ n ∈ nodes, n.id = x) (hxS : x ∉ S) :
    countOutside nodes (S ++ [x]) < countOutside nodes S := by
  induction nodes with
  | nil => simp at hx
  | cons m rest ih =>
    unfold countOutside at ih ⊢
    simp only [List.filter_cons]
    obtain ⟨n, hn, hnx⟩ := hx
    rcases List.mem_cons.mp hn with rfl | hn
    · have hmem : n.id ∈ S ++ [x] := by
        rw [hnx]
        exact List.mem_append_right _ (List.mem_singleton_self _)
      have hnot : n.id ∉ S := by rw [hnx]; exact hxS
      rw [if_neg (by simp [hmem]), if_pos (by simp [hnot])]
      simp only [List.length_cons]
      have := countOutside_append_le rest S x
      unfold countOutside at this
      omega
    · have hlt := ih ⟨n, hn, hnx⟩
      by_cases hmx : m.id ∈ S ++ [x] <;> by_cases hm : m.id ∈ S
      · rw [if_neg (by simp [hmx]), if_neg (by simp [hm])]
        exact hlt
      · rw [if_neg (by simp [hmx]), if_pos (by simp [hm])]
        simp only [List.length_cons]
        omega
      · exact absurd (List.mem_append_left _ hm) hmx
      · rw [if_pos (by simp [hmx]), if_pos (by simp [hm])]
        simp only [List.length_cons]
        omega

theorem countOutside_grow {nodes : List Node} :
    ∀ (q td : List String), q.Nodup →
      (∀ x ∈ q, x ∉ td ∧ ∃ n ∈ nodes, n.id = x) →
      countOutside nodes (td ++ q) + q.length ≤ countOutside nodes td := by
  intro q
  induction q with
  | nil => intro td _ _; simp
  | cons x q2 ih =>
    intro td hnd hq
    have hx := hq x (List.mem_cons_self _ _)
    have hstep : countOutside nodes (td ++ [x]) < countOutside nodes td :=
      countOutside_append_lt hx.2 hx.1
    have hrec : countOutside nodes ((td ++ [x]) ++ q2) + q2.length ≤
        countOutside nodes (td ++ [x]) := by
      refine ih (td ++ [x]) (List.nodup_cons.mp hnd).2 ?_
      intro y hy
      have hyq := hq y (List.mem_cons_of_mem _ hy)
      refine ⟨?_, hyq.2⟩
      intro hmem
      rcases List.mem_append.mp hmem with h | h
      · exact hyq.1 h
      · rw [List.mem_singleton] at h
        exact (List.nodup_cons.mp hnd).1 (h ▸ hy)
    have hassoc : td ++ x :: q2 = (td ++ [x]) ++ q2 := by simp
    rw [hassoc]
    simp only [List.length_cons]
    omega

theorem getBranchLoop_terminates (nodes : List Node) :
    ∀ (fuel : ℕ) (stack toDelete : List String),
      (∀ x ∈ stack, x ∈ toDelete) →
      2 * countOutside nodes toDelete + stack.length ≤ fuel →
      (getBranchLoop nodes fuel stack toDelete).isSome = true := by
  intro fuel
  induction fuel with
  | zero =>
    intro stack toDelete _ hm
    cases stack with
    | nil => rw [getBranchLoop_nil]; rfl
    | cons c rest => simp at hm
  | succ f ih =>
    intro stack toDelete hsub hm
    cases stack with
    | nil => rw [getBranchLoop_nil]; rfl
    | cons current rest =>
      rw [getBranchLoop_succ]
      obtain ⟨q, heq, hnd, hq, _⟩ := addNewChildren_spec (childrenOf nodes current) toDelete []
      rw [heq]
      simp only [List.nil_append]
      have hqrec : ∀ x ∈ q, x ∉ toDelete ∧ ∃ n ∈ nodes, n.id = x := by
        intro x hx
        obtain ⟨h1, c, hc, h3⟩ := hq x hx
        exact ⟨h1, c, List.mem_of_mem_filter hc, h3⟩
      have hgrow := countOutside_grow q toDelete hnd hqrec
      refine ih _ _ ?_ ?_
      · intro x hx
        rcases List.mem_append.mp hx with hx | hx
        · exact List.mem_append_right _ (List.mem_reverse.mp hx)
        · exact List.mem_append_left _ (hsub x (List.mem_cons_of_mem _ hx))
      · simp only [List.length_append, List.length_reverse, List.length_cons] at hm ⊢
        omega

/-- C9: the work-list descendant traversal performs only finitely many
iterations on every finite node collection and starting id: with fuel twice
the collection length plus one, the loop always reaches the empty work list
and returns its deletion set. -/
theorem getBranchToDelete_terminates (nodes : List Node) (selectedId : String) :
    (getBranchLoop nodes (2 * nodes.length + 1) [selectedId] [selectedId]).isSome = true := by
  refine getBranchLoop_terminates nodes _ _ _ (by simp) ?_
  have : countOutside nodes [selectedId] ≤ nodes.length := List.length_filter_le _ _
  simp only [List.length_cons, List.length_nil]
  omega

theorem childrenOf_mem {nodes : List Node} {pid : String} {c : Node}
    (hc : c ∈ childrenOf nodes pid) : c ∈ nodes ∧ c.parentId = some pid := by
  unfold childrenOf at hc
  have h1 := List.mem_of_mem_filter hc
  have h2 := List.of_mem_filter hc
  simp only [decide_eq_true_eq] at h2
  exact ⟨h1, h2⟩

theorem mem_childrenOf {nodes : List Node} {pid : String} {c : Node}
    (h1 : c ∈ nodes) (h2 : c.parentId = some pid) : c ∈ childrenOf nodes pid := by
  unfold childrenOf
  exact List.mem_filter.mpr ⟨h1, by simp [h2]⟩

theorem getBranchLoop_spec (nodes : List Node) (X : String) :
    ∀ (fuel : ℕ) (stack toDelete res : List String),
      getBranchLoop nodes fuel stack toDelete = some res →
      (∀ x ∈ stack, x ∈ toDelete) →
      (∀ y ∈ toDelete, y = X ∨ descends nodes X y) →
      (∀ y ∈ toDelete, y ∈ stack ∨ ∀ c, childEdge nodes y c → c ∈ toDelete) →
      X ∈ toDelete →
      ∀ y, y ∈ res ↔ (y = X ∨ descends nodes X y) := by
  intro fuel
  induction fuel with
  | zero =>
    intro stack toDelete res hres hsub hsound hclosed hX y
    cases stack with
    | nil =>
      rw [getBranchLoop_nil] at hres
      injection hres with hres
      subst hres
      constructor
      · exact hsound y
      · rintro (rfl | hdesc)
        · exact hX
        · induction hdesc with
          | single h =>
            rcases hclosed X hX with h2 | h2
            · cases h2
            · exact h2 _ h
          | tail hTG hedge ih =>
            rcases hclosed _ ih with h2 | h2
            · cases h2
            · exact h2 _ hedge
    | cons c rest => cases hres
  | succ f ih =>
    intro stack toDelete res hres hsub hsound hclosed hX y
    cases stack with
    | nil =>
      rw [getBranchLoop_nil] at hres
      injection hres with hres
      subst hres
      constructor
      · exact hsound y
      · rintro (rfl | hdesc)
        · exact hX
        · induction hdesc with
          | single h =>
            rcases hclosed X hX with h2 | h2
            · cases h2
            · exact h2 _ h
          | tail hTG hedge ihh =>
            rcases hclosed _ ihh with h2 | h2
            · cases h2
            · exact h2 _ hedge
    | cons current rest =>
      rw [getBranchLoop_succ] at hres
      obtain ⟨q, heq, hnd, hq, hcl⟩ := addNewChildren_spec (childrenOf nodes current) toDelete []
      rw [heq] at hres
      simp only [List.nil_append] at hres
      have hcurrent : current ∈ toDelete := hsub current (List.mem_cons_self _ _)
      refine ih _ _ _ hres ?_ ?_ ?_ (List.mem_append_left _ hX) y
      · intro x hx
        rcases List.mem_append.mp hx with hx | hx
        · exact List.mem_append_right _ (List.mem_reverse.mp hx)
        · exact List.mem_append_left _ (hsub x (List.mem_cons_of_mem _ hx))
      · intro z hz
        rcases List.mem_append.mp hz with hz | hz
        · exact hsound z hz
        · obtain ⟨_, c, hc, hcz⟩ := hq z hz
          obtain ⟨hcmem, hcpar⟩ := childrenOf_mem hc
          have hedge : childEdge nodes current z := ⟨c, hcmem, hcpar, hcz⟩
          rcases hsound current hcurrent with rfl | hTG
          · exact Or.inr (Relation.TransGen.single hedge)
          · exact Or.inr (Relation.TransGen.tail hTG hedge)
      · intro z hz
        rcases List.mem_append.mp hz with hz | hzq
        · rcases hclosed z hz with hst | hcl2
          · rcases List.mem_cons.mp hst with rfl | hst
            · refine Or.inr ?_
              intro c hc
              obtain ⟨n, hn, hpar, hid⟩ := hc
              have := hcl n (mem_childrenOf hn hpar)
              rw [hid] at this
              exact this
            · exact Or.inl (List.mem_append_right _ hst)
          · refine Or.inr ?_
            intro c hc
            exact List.mem_append_left _ (hcl2 c hc)
        · exact Or.inl (List.mem_append_left _ (List.mem_reverse.mpr hzq))

theorem getBranchToDelete_mem (nodes : List Node) (X : String) :
    ∀ y, y ∈ getBranchToDelete nodes X ↔ (y = X ∨ descends nodes X y) := by
  obtain ⟨res, hres⟩ :=
    Option.isSome_iff_exists.mp (getBranchToDelete_terminates nodes X)
  intro y
  unfold getBranchToDelete
  rw [hres]
  simp only [Option.getD_some]
  refine getBranchLoop_spec nodes X _ _ _ res hres ?_ ?_ ?_ ?_ y
  · intro x hx
    exact hx
  · intro z hz
    rw [List.mem_singleton] at hz
    exact Or.inl hz
  · intro z hz
    exact Or.inl hz
  · exact List.mem_singleton_self _

/-! ## removeSelectedBranch lemmas -/

theorem selectedNodeOf_mem_id {s : AppState} (h : s.selectedId ∈ s.nodes.map Node.id) :
    ∃ r, selectedNodeOf s = some r ∧ r ∈ s.nodes ∧ r.id = s.selectedId := by
  rcases List.mem_map.mp h with ⟨q, hq, hqid⟩
  unfold selectedNodeOf
  cases hfind : List.find? (fun n => n.id = s.selectedId) s.nodes with
  | none =>
    exfalso
    have := List.find?_eq_none.mp hfind q hq
    simp [hqid] at this
  | some r =>
    refine ⟨r, rfl, List.mem_of_find?_eq_some hfind, ?_⟩
    have := List.find?_some hfind
    simpa using this

theorem removeSelectedBranch_fires {s : AppState} {sel : Node}
    (hsel : selectedNodeOf s = some sel)
    (hguard : (rootNodeOf s.nodes).map Node.id ≠ some sel.id) :
    removeSelectedBranch s =
      { s with
        nodes := s.nodes.filter
          (fun n => n.id ∉ getBranchToDelete s.nodes sel.id)
        customPositions := s.customPositions.filter
          (fun kv => kv.1 ∉ getBranchToDelete s.nodes sel.id)
        selectedId :=
          match rootNodeOf s.nodes with
          | some r => r.id
          | none => s.selectedId } := by
  unfold removeSelectedBranch
  rw [hsel]
  simp only [if_neg hguard]

/-- C2: deleteBranch on a non-root id X of a rooted collection removes
exactly X together with all transitive descendants of X: membership in the
computed deletion set is equivalent to being X or a descendant of X, the
surviving collection is the filter by that set, and no surviving node has a
parentId inside the set. -/
theorem deleteBranch_removes_branch (s : AppState) (X : String) (r : Node)
    (hroot : rootNodeOf s.nodes = some r)
    (hX : X ∈ s.nodes.map Node.id)
    (hXr : X ≠ r.id) :
    (deleteBranchOn s X).nodes =
        s.nodes.filter (fun n => n.id ∉ getBranchToDelete s.nodes X) ∧
    (∀ y, y ∈ getBranchToDelete s.nodes X ↔ (y = X ∨ descends s.nodes X y)) ∧
    (∀ n ∈ (deleteBranchOn s X).nodes, ∀ p, n.parentId = some p →
        p ∉ getBranchToDelete s.nodes X) := by
  have hX2 : X ∈ (({ s with selectedId := X } : AppState)).nodes.map Node.id := hX
  obtain ⟨sel, hsel, hselmem, hselid⟩ :=
    @selectedNodeOf_mem_id { s with selectedId := X } hX2
  have hselX : sel.id = X := hselid
  have hguard : (rootNodeOf s.nodes).map Node.id ≠ some sel.id := by
    rw [hroot]
    intro hcontra
    have hrs : r.id = sel.id := by simpa using hcontra
    exact hXr (hselX.symm.trans hrs.symm)
  have hfired := @removeSelectedBranch_fires { s with selectedId := X } sel hsel hguard
  have hnodes : (deleteBranchOn s X).nodes =
      s.nodes.filter (fun n => n.id ∉ getBranchToDelete s.nodes X) := by
    unfold deleteBranchOn
    rw [hfired]
    show s.nodes.filter (fun n => n.id ∉ getBranchToDelete s.nodes sel.id) = _
    rw [hselX]
  refine ⟨hnodes, getBranchToDelete_mem s.nodes X, ?_⟩
  intro n hn p hp hpmem
  rw [hnodes] at hn
  have hnid : n.id ∉ getBranchToDelete s.nodes X := by
    have := List.of_mem_filter hn
    simpa using this
  have hnmem : n ∈ s.nodes := List.mem_of_mem_filter hn
  have hedge : childEdge s.nodes p n.id := ⟨n, hnmem, hp, rfl⟩
  rcases (getBranchToDelete_mem s.nodes X p).mp hpmem with hpX | hTG
  · rw [hpX] at hedge
    exact hnid ((getBranchToDelete_mem s.nodes X n.id).mpr
      (Or.inr (Relation.TransGen.single hedge)))
  · exact hnid ((getBranchToDelete_mem s.nodes X n.id).mpr
      (Or.inr (Relation.TransGen.tail hTG hedge)))

/-- Witness for C2: deleting node-1 from the seeded demo state. -/
theorem deleteBranch_removes_branch_witness :
    (rootNodeOf demoState.nodes = some ⟨"root", "Open Mind Map", none⟩ ∧
      "node-1" ∈ demoState.nodes.map Node.id ∧
      "node-1" ≠ (⟨"root", "Open Mind Map", none⟩ : Node).id) ∧
    ((deleteBranchOn demoState "node-1").nodes =
        demoState.nodes.filter
          (fun n => n.id ∉ getBranchToDelete demoState.nodes "node-1") ∧
      (∀ y, y ∈ getBranchToDelete demoState.nodes "node-1" ↔
        (y = "node-1" ∨ descends demoState.nodes "node-1" y)) ∧
      (∀ n ∈ (deleteBranchOn demoState "node-1").nodes, ∀ p, n.parentId = some p →
        p ∉ getBranchToDelete demoState.nodes "node-1")) :=
  ⟨⟨by decide, by decide, by decide⟩,
    deleteBranch_removes_branch demoState "node-1" ⟨"root", "Open Mind Map", none⟩
      (by decide) (by decide) (by decide)⟩

/-! ## Validity preservation -/

theorem rootNodeOf_mem {nodes : List Node} {r : Node} (h : rootNodeOf nodes = some r) :
    r ∈ nodes ∧ r.parentId = none := by
  unfold rootNodeOf at h
  refine ⟨List.mem_of_find?_eq_some h, ?_⟩
  have := List.find?_some h
  simpa using this

theorem id_unique {nodes : List Node} (hnd : (nodes.map Node.id).Nodup)
    {a b : Node} (ha : a ∈ nodes) (hb : b ∈ nodes) (hid : a.id = b.id) : a = b :=
  List.inj_on_of_nodup_map hnd ha hb hid

theorem no_edge_into_root {nodes : List Node} (hnd : (nodes.map Node.id).Nodup)
    {r : Node} (hr : r ∈ nodes) (hrp : r.parentId = none) (w : String) :
    ¬ childEdge nodes w r.id := by
  rintro ⟨n, hn, hpar, hid⟩
  have := id_unique hnd hn hr hid
  rw [this, hrp] at hpar
  cases hpar

theorem not_descends_into_root {nodes : List Node} (hnd : (nodes.map Node.id).Nodup)
    {r : Node} (hr : r ∈ nodes) (hrp : r.parentId = none) (w : String) :
    ¬ descends nodes w r.id := by
  intro hdesc
  obtain ⟨a, _, hedge⟩ := Relation.TransGen.tail'_iff.mp hdesc
  exact no_edge_into_root hnd hr hrp a hedge

theorem addChild_eq_of_none {s : AppState} (h : selectedNodeOf s = none) :
    addChild s = s := by
  unfold addChild
  rw [h]

theorem addChild_eq_of_selected {s : AppState} {sel : Node}
    (h : selectedNodeOf s = some sel) :
    addChild s =
      { s with
        nodes := s.nodes ++ [⟨mkNodeId s.idCounter, "", some sel.id⟩]
        idCounter := s.idCounter + 1
        selectedId := mkNodeId s.idCounter } := by
  unfold addChild
  rw [h]

theorem removeSelectedBranch_eq_of_none {s : AppState} (h : selectedNodeOf s = none) :
    removeSelectedBranch s = s := by
  unfold removeSelectedBranch
  rw [h]

theorem removeSelectedBranch_eq_of_root {s : AppState} {sel : Node}
    (h : selectedNodeOf s = some sel)
    (hg : (rootNodeOf s.nodes).map Node.id = some sel.id) :
    removeSelectedBranch s = s := by
  unfold removeSelectedBranch
  rw [h]
  simp only [if_pos hg]

theorem valid_addChildOn {s : AppState} (hv : ValidState s) (pid : String) :
    ValidState (addChildOn s pid) := by
  obtain ⟨hroot1, hnd, hfresh⟩ := hv
  unfold addChildOn
  cases hsel : selectedNodeOf { s with selectedId := pid } with
  | none =>
    rw [addChild_eq_of_none hsel]
    exact ⟨hroot1, hnd, hfresh⟩
  | some sel =>
    rw [addChild_eq_of_selected hsel]
    refine ⟨?_, ?_, ?_⟩
    · show rootCount (s.nodes ++ [⟨mkNodeId s.idCounter, "", some sel.id⟩]) = 1
      unfold rootCount at hroot1 ⊢
      rw [List.countP_append]
      simpa using hroot1
    · show ((s.nodes ++ [(⟨mkNodeId s.idCounter, "", some sel.id⟩ : Node)]).map Node.id).Nodup
      rw [List.map_append]
      refine List.nodup_append.mpr ⟨hnd, List.nodup_singleton _, ?_⟩
      intro a ha hb
      simp only [List.map_cons, List.map_nil, List.mem_singleton] at hb
      subst hb
      exact fresh_id_not_mem hfresh (Nat.le_refl _) ha
    · show ∀ n ∈ s.nodes ++ [(⟨mkNodeId s.idCounter, "", some sel.id⟩ : Node)],
        (idMatchNum n.id).getD 0 < s.idCounter + 1
      intro n hn
      rcases List.mem_append.mp hn with hn | hn
      · have := hfresh n hn
        omega
      · rw [List.mem_singleton] at hn
        subst hn
        simp [idMatchNum_mkNodeId]

theorem valid_deleteBranchOn {s : AppState} (hv : ValidState s) (x : String) :
    ValidState (deleteBranchOn s x) := by
  obtain ⟨hroot1, hnd, hfresh⟩ := hv
  unfold deleteBranchOn
  cases hsel : selectedNodeOf { s with selectedId := x } with
  | none =>
    rw [removeSelectedBranch_eq_of_none hsel]
    exact ⟨hroot1, hnd, hfresh⟩
  | some sel =>
    by_cases hguard : (rootNodeOf s.nodes).map Node.id = some sel.id
    · have hguard2 : (rootNodeOf (({ s with selectedId := x } : AppState)).nodes).map
          Node.id = some sel.id := hguard
      rw [removeSelectedBranch_eq_of_root hsel hguard2]
      exact ⟨hroot1, hnd, hfresh⟩
    · have hguard2 : (rootNodeOf (({ s with selectedId := x } : AppState)).nodes).map
          Node.id ≠ some sel.id := hguard
      rw [removeSelectedBranch_fires hsel hguard2]
      have hsub : (s.nodes.filter
          (fun n => n.id ∉ getBranchToDelete s.nodes sel.id)).Sublist s.nodes :=
        List.filter_sublist _
      refine ⟨?_, ?_, ?_⟩
      · show rootCount (s.nodes.filter
          (fun n => n.id ∉ getBranchToDelete s.nodes sel.id)) = 1
        obtain ⟨r, hr⟩ : ∃ r, rootNodeOf s.nodes = some r := by
          unfold rootCount at hroot1
          have hpos : 0 < s.nodes.countP (fun n => n.parentId = none) := by omega
          obtain ⟨n, hn, hpred⟩ := List.countP_pos_iff.mp hpos
          unfold rootNodeOf
          cases hfind : List.find? (fun n => n.parentId = none) s.nodes with
          | none => exact absurd hpred (List.find?_eq_none.mp hfind n hn)
          | some r2 => exact ⟨r2, rfl⟩
        obtain ⟨hrmem, hrpar⟩ := rootNodeOf_mem hr
        have hrX : r.id ≠ sel.id := by
          intro hcontra
          rw [hr] at hguard
          simp [hcontra] at hguard
        have hrD : r.id ∉ getBranchToDelete s.nodes sel.id := by
          intro hmem
          rcases (getBranchToDelete_mem s.nodes sel.id r.id).mp hmem with h | h
          · exact hrX h
          · exact not_descends_into_root hnd hrmem hrpar sel.id h
        have hkeep : r ∈ s.nodes.filter
            (fun n => n.id ∉ getBranchToDelete s.nodes sel.id) :=
          List.mem_filter.mpr ⟨hrmem, by simpa using hrD⟩
        unfold rootCount at hroot1 ⊢
        have hle := List.Sublist.countP_le (fun n => decide (n.parentId = none)) hsub
        have hpos : 0 < (s.nodes.filter
            (fun n => n.id ∉ getBranchToDelete s.nodes sel.id)).countP
            (fun n => n.parentId = none) :=
          List.countP_pos_iff.mpr ⟨r, hkeep, by simpa using hrpar⟩
        omega
      · exact List.Nodup.sublist (List.Sublist.map Node.id hsub) hnd
      · intro n hn
        exact hfresh n (hsub.subset hn)

/-- One edit step preserves validity. -/
theorem valid_editStep {s t : AppState} (hv : ValidState s) (h : EditStep s t) :
    ValidState t := by
  cases h with
  | add pid => exact valid_addChildOn hv pid
  | del x => exact valid_deleteBranchOn hv x

/-- C6: root uniqueness is an invariant of the edit operations: every state
reachable from a valid single-root state by addChild and deleteBranch steps
has exactly one node with null parentId; addChild only creates nodes whose
parentId is the id of an existing node; and deleteBranch applied to the
root leaves the node collection and the overrides untouched. -/
theorem root_uniqueness_invariant (s t : AppState) (hv : ValidState s)
    (hsteps : Relation.ReflTransGen EditStep s t) :
    rootCount t.nodes = 1 ∧
    (∀ u : AppState, ∀ pid : String, (addChildOn u pid).nodes = u.nodes ∨
      ∃ p ∈ u.nodes, (addChildOn u pid).nodes =
        u.nodes ++ [⟨mkNodeId u.idCounter, "", some p.id⟩]) ∧
    (∀ u : AppState, ∀ r : Node, rootNodeOf u.nodes = some r →
      (deleteBranchOn u r.id).nodes = u.nodes ∧
      (deleteBranchOn u r.id).customPositions = u.customPositions) := by
  refine ⟨?_, addChildOn_nodes_cases, ?_⟩
  · have : ValidState t := by
      induction hsteps with
      | refl => exact hv
      | tail hsteps hstep ih => exact valid_editStep ih hstep
    exact this.1
  · intro u r hroot
    obtain ⟨hrmem, _⟩ := rootNodeOf_mem hroot
    have hXid : r.id ∈ (({ u with selectedId := r.id } : AppState)).nodes.map Node.id :=
      List.mem_map_of_mem Node.id hrmem
    obtain ⟨q, hsel, hqmem, hqid⟩ := @selectedNodeOf_mem_id { u with selectedId := r.id } hXid
    have hq : q.id = r.id := hqid
    have hguard : (rootNodeOf (({ u with selectedId := r.id } : AppState)).nodes).map
        Node.id = some q.id := by
      show (rootNodeOf u.nodes).map Node.id = some q.id
      rw [hroot, hq]
      rfl
    unfold deleteBranchOn
    rw [removeSelectedBranch_eq_of_root hsel hguard]
    exact ⟨rfl, rfl⟩

/-- Witness for C6: one addChild step from the valid seeded demo state. -/
theorem root_uniqueness_invariant_witness :
    ValidState demoState ∧
    (rootCount (addChildOn demoState "root").nodes = 1 ∧
      (∀ u : AppState, ∀ pid : String, (addChildOn u pid).nodes = u.nodes ∨
        ∃ p ∈ u.nodes, (addChildOn u pid).nodes =
          u.nodes ++ [⟨mkNodeId u.idCounter, "", some p.id⟩]) ∧
      (∀ u : AppState, ∀ r : Node, rootNodeOf u.nodes = some r →
        (deleteBranchOn u r.id).nodes = u.nodes ∧
        (deleteBranchOn u r.id).customPositions = u.customPositions)) :=
  ⟨⟨by decide, by decide, by decide⟩,
    root_uniqueness_invariant demoState (addChildOn demoState "root")
      ⟨by decide, by decide, by decide⟩
      (Relation.ReflTransGen.single (EditStep.add demoState "root"))⟩

theorem deleteBranchOn_fires (s : AppState) (X : String) (r : Node)
    (hroot : rootNodeOf s.nodes = some r)
    (hX : X ∈ s.nodes.map Node.id)
    (hXr : X ≠ r.id) :
    (deleteBranchOn s X).nodes =
        s.nodes.filter (fun n => n.id ∉ getBranchToDelete s.nodes X) ∧
    (deleteBranchOn s X).customPositions =
        s.customPositions.filter (fun kv => kv.1 ∉ getBranchToDelete s.nodes X) := by
  have hX2 : X ∈ (({ s with selectedId := X } : AppState)).nodes.map Node.id := hX
  obtain ⟨sel, hsel, hselmem, hselid⟩ :=
    @selectedNodeOf_mem_id { s with selectedId := X } hX2
  have hselX : sel.id = X := hselid
  have hguard : (rootNodeOf (({ s with selectedId := X } : AppState)).nodes).map
      Node.id ≠ some sel.id := by
    show (rootNodeOf s.nodes).map Node.id ≠ some sel.id
    rw [hroot]
    intro hcontra
    have hrs : r.id = sel.id := by simpa using hcontra
    exact hXr (hselX.symm.trans hrs.symm)
  have hfired := @removeSelectedBranch_fires { s with selectedId := X } sel hsel hguard
  unfold deleteBranchOn
  rw [hfired]
  constructor
  · show s.nodes.filter (fun n => n.id ∉ getBranchToDelete s.nodes sel.id) = _
    rw [hselX]
  · show s.customPositions.filter (fun kv => kv.1 ∉ getBranchToDelete s.nodes sel.id) = _
    rw [hselX]

/-- C7: after deleteBranch on a non-root id X, provided every override key
referenced an existing node beforehand, the override map contains no key of
the deleted branch (X or any deleted descendant), and every remaining
override key references a node still present in the collection. -/
theorem delete_prunes_overrides (s : AppState) (X : String) (r : Node)
    (hov : ∀ kv ∈ s.customPositions, kv.1 ∈ s.nodes.map Node.id)
    (hroot : rootNodeOf s.nodes = some r)
    (hX : X ∈ s.nodes.map Node.id)
    (hXr : X ≠ r.id) :
    (∀ k ∈ getBranchToDelete s.nodes X,
        jsGet (deleteBranchOn s X).customPositions k = none) ∧
    (∀ kv ∈ (deleteBranchOn s X).customPositions,
        kv.1 ∈ (deleteBranchOn s X).nodes.map Node.id) := by
  obtain ⟨hnodes, hcustom⟩ := deleteBranchOn_fires s X r hroot hX hXr
  constructor
  · intro k hk
    rw [hcustom]
    refine jsGet_of_not_mem_keys ?_
    intro hmem
    unfold keysOf at hmem
    rcases List.mem_map.mp hmem with ⟨kv, hkv, hkvk⟩
    have := List.of_mem_filter hkv
    rw [hkvk] at this
    simp only [decide_eq_true_eq] at this
    exact this hk
  · intro kv hkv
    rw [hcustom] at hkv
    have hkmem := List.mem_of_mem_filter hkv
    have hknot : kv.1 ∉ getBranchToDelete s.nodes X := by
      have := List.of_mem_filter hkv
      simpa using this
    have hkid := hov kv hkmem
    rcases List.mem_map.mp hkid with ⟨n, hn, hnid⟩
    rw [hnodes]
    refine List.mem_map.mpr ⟨n, ?_, hnid⟩
    refine List.mem_filter.mpr ⟨hn, ?_⟩
    rw [hnid]
    simpa using hknot

/-- Witness for C7: deleting node-1, which carries an override, from the
demo state with overrides. -/
theorem delete_prunes_overrides_witness :
    ((∀ kv ∈ demoStateOv.customPositions, kv.1 ∈ demoStateOv.nodes.map Node.id) ∧
      rootNodeOf demoStateOv.nodes = some ⟨"root", "Open Mind Map", none⟩ ∧
      "node-1" ∈ demoStateOv.nodes.map Node.id ∧
      "node-1" ≠ (⟨"root", "Open Mind Map", none⟩ : Node).id) ∧
    ((∀ k ∈ getBranchToDelete demoStateOv.nodes "node-1",
        jsGet (deleteBranchOn demoStateOv "node-1").customPositions k = none) ∧
      (∀ kv ∈ (deleteBranchOn demoStateOv "node-1").customPositions,
        kv.1 ∈ (deleteBranchOn demoStateOv "node-1").nodes.map Node.id)) :=
  ⟨⟨by decide, by decide, by decide, by decide⟩,
    delete_prunes_overrides demoStateOv "node-1" ⟨"root", "Open Mind Map", none⟩
      (by decide) (by decide) (by decide) (by decide)⟩

/-! ## Import path -/

/-- Counterexample for C8: the import path does not substitute defaults.
For a record with a missing label and a missing parentId, the imported
record is not the defaulted record the claim describes, the import sees no
root, while the defaulted version would be a root. -/
theorem import_no_defaults_cex :
    importNodes [(⟨some "a", none, none⟩ : RawNode)] ≠
      [claimDefaultedRecord ⟨some "a", none, none⟩] ∧
    findRootRaw (importNodes [(⟨some "a", none, none⟩ : RawNode)]) = none ∧
    findRootRaw [claimDefaultedRecord ⟨some "a", none, none⟩] =
      some (claimDefaultedRecord ⟨some "a", none, none⟩) :=
  ⟨by decide, by decide, by decide⟩

/-- C8 as amended: the JSON import path copies records verbatim with no
defaulting, so a record whose parentId is absent is simply never a root;
the serialization module normaliseNode is the place that substitutes empty
strings for a missing id or label and an empty list for missing children;
and a collection in which no record carries a null parentId has no root,
in which case the layout is the empty map. -/
theorem import_tolerance_amended :
    (∀ raws : List RawNode, importNodes raws = raws) ∧
    (∀ i l, normaliseNode (RawTree.mk i l none) =
      NTree.mk (i.getD "") (l.getD "") []) ∧
    (∀ i l xs, normaliseNode (RawTree.mk i l (some xs)) =
      NTree.mk (i.getD "") (l.getD "") (normaliseChildren xs)) ∧
    (∀ raws : List RawNode, (∀ rn ∈ raws, rn.parentId ≠ some none) →
      findRootRaw raws = none) ∧
    (∀ nodes : List Node, nodes.find? (fun n => n.parentId = none) = none →
      computeLayout nodes = []) := by
  refine ⟨?_, ?_, ?_, ?_, ?_⟩
  · intro raws
    unfold importNodes
    exact List.map_id _
  · intro i l
    rfl
  · intro i l xs
    rfl
  · intro raws hall
    unfold findRootRaw
    refine List.find?_eq_none.mpr ?_
    intro rn hrn
    simpa using hall rn hrn
  · intro nodes h
    unfold computeLayout
    rw [h]

/-- Witness for the amended C8 at a concrete rootless collection. -/
theorem import_tolerance_amended_witness :
    (∀ rn ∈ [(⟨some "a", none, none⟩ : RawNode)], rn.parentId ≠ some none) ∧
    findRootRaw [(⟨some "a", none, none⟩ : RawNode)] = none :=
  ⟨by decide, import_tolerance_amended.2.2.2.1 [⟨some "a", none, none⟩] (by decide)⟩

/-! ## Layout traversal lemmas -/

theorem mkChildPos_x (s e : ℝ) (d i t : ℕ) :
    (mkChildPos s e d i t).x =
      Real.cos (((s + (e - s) * i / t) + (s + (e - s) * (i + 1) / t)) / 2) *
        ((d : ℝ) * LEVEL_SPACING) := rfl

theorem mkChildPos_y (s e : ℝ) (d i t : ℕ) :
    (mkChildPos s e d i t).y =
      Real.sin (((s + (e - s) * i / t) + (s + (e - s) * (i + 1) / t)) / 2) *
        ((d : ℝ) * LEVEL_SPACING) := rfl

theorem mkChildPos_depth (s e : ℝ) (d i t : ℕ) : (mkChildPos s e d i t).depth = d := rfl

theorem mkChildPos_angleStart (s e : ℝ) (d i t : ℕ) :
    (mkChildPos s e d i t).angleStart = s + (e - s) * i / t := rfl

theorem mkChildPos_angleEnd (s e : ℝ) (d i t : ℕ) :
    (mkChildPos s e d i t).angleEnd = s + (e - s) * (i + 1) / t := rfl

theorem traverse_zero (nodes : List Node) (u : String) (s e : ℝ) (d : ℕ)
    (acc : List (String × Pos)) : traverse nodes 0 u s e d acc = acc := rfl

theorem traverse_succ (nodes : List Node) (fuel : ℕ) (u : String) (s e : ℝ) (d : ℕ)
    (acc : List (String × Pos)) :
    traverse nodes (fuel + 1) u s e d acc =
      expandChildren (traverse nodes fuel) s e d (childrenOf nodes u).length
        (childrenOf nodes u) 0 acc := rfl

theorem expandChildren_nil (expand : String → ℝ → ℝ → ℕ → List (String × Pos) → List (String × Pos))
    (s e : ℝ) (d total i : ℕ) (acc : List (String × Pos)) :
    expandChildren expand s e d total [] i acc = acc := rfl

theorem expandChildren_cons (expand : String → ℝ → ℝ → ℕ → List (String × Pos) → List (String × Pos))
    (s e : ℝ) (d total : ℕ) (c : Node) (rest : List Node) (i : ℕ)
    (acc : List (String × Pos)) :
    expandChildren expand s e d total (c :: rest) i acc =
      expandChildren expand s e d total rest (i + 1)
        (expand c.id (mkChildPos s e d i total).angleStart
          (mkChildPos s e d i total).angleEnd (d + 1)
          ((c.id, mkChildPos s e d i total) :: acc)) := rfl

theorem expand_append
    (expand : String → ℝ → ℝ → ℕ → List (String × Pos) → List (String × Pos))
    (hexp : ∀ u s e d acc, expand u s e d acc = expand u s e d [] ++ acc) :
    ∀ (cs : List Node) (s e : ℝ) (d total i : ℕ) (acc : List (String × Pos)),
      expandChildren expand s e d total cs i acc =
        expandChildren expand s e d total cs i [] ++ acc := by
  intro cs
  induction cs with
  | nil => intro s e d total i acc; rfl
  | cons c rest ih =>
    intro s e d total i acc
    rw [expandChildren_cons, expandChildren_cons,
      ih s e d total (i + 1), hexp,
      ih s e d total (i + 1)
        (expand c.id (mkChildPos s e d i total).angleStart
          (mkChildPos s e d i total).angleEnd (d + 1) [(c.id, mkChildPos s e d i total)])]
    rw [hexp c.id (mkChildPos s e d i total).angleStart
      (mkChildPos s e d i total).angleEnd (d + 1)
      [(c.id, mkChildPos s e d i total)]]
    simp

theorem traverse_append :
    ∀ (fuel : ℕ) (nodes : List Node) (u : String) (s e : ℝ) (d : ℕ)
      (acc : List (String × Pos)),
      traverse nodes fuel u s e d acc = traverse nodes fuel u s e d [] ++ acc := by
  intro fuel
  induction fuel with
  | zero => intro nodes u s e d acc; rfl
  | succ f ih =>
    intro nodes u s e d acc
    rw [traverse_succ, traverse_succ]
    exact expand_append (traverse nodes f)
      (fun u2 s2 e2 d2 a2 => ih nodes u2 s2 e2 d2 a2) _ s e d _ 0 acc

theorem expand_mem_iff
    (expand : String → ℝ → ℝ → ℕ → List (String × Pos) → List (String × Pos))
    (hexp : ∀ u s e d acc, expand u s e d acc = expand u s e d [] ++ acc)
    (s e : ℝ) (d total : ℕ) :
    ∀ (cs : List Node) (i : ℕ) (acc : List (String × Pos)) (x : String) (p : Pos),
      (x, p) ∈ expandChildren expand s e d total cs i acc ↔
        (x, p) ∈ acc ∨ ∃ j c, cs.get? j = some c ∧
          ((x, p) = (c.id, mkChildPos s e d (i + j) total) ∨
            (x, p) ∈ expand c.id (mkChildPos s e d (i + j) total).angleStart
              (mkChildPos s e d (i + j) total).angleEnd (d + 1) []) := by
  intro cs
  induction cs with
  | nil =>
    intro i acc x p
    rw [expandChildren_nil]
    simp
  | cons c rest ih =>
    intro i acc x p
    rw [expandChildren_cons, ih (i + 1), hexp]
    simp only [List.mem_append, List.mem_cons]
    constructor
    · rintro ((hin | (heq | hacc)) | ⟨j, c2, hj, hcase⟩)
      · refine Or.inr ⟨0, c, rfl, Or.inr ?_⟩
        rw [Nat.add_zero]
        exact hin
      · refine Or.inr ⟨0, c, rfl, Or.inl ?_⟩
        rw [Nat.add_zero]
        exact heq
      · exact Or.inl hacc
      · refine Or.inr ⟨j + 1, c2, hj, ?_⟩
        have harith : i + 1 + j = i + (j + 1) := by omega
        rw [harith] at hcase
        exact hcase
    · rintro (hacc | ⟨j, c2, hj, hcase⟩)
      · exact Or.inl (Or.inr (Or.inr hacc))
      · cases j with
        | zero =>
          rw [List.get?_cons_zero] at hj
          injection hj with hj
          subst hj
          rw [Nat.add_zero] at hcase
          rcases hcase with heq | hin
          · exact Or.inl (Or.inr (Or.inl heq))
          · exact Or.inl (Or.inl hin)
        | succ j2 =>
          rw [List.get?_cons_succ] at hj
          refine Or.inr ⟨j2, c2, hj, ?_⟩
          have harith : i + (j2 + 1) = i + 1 + j2 := by omega
          rw [harith] at hcase
          exact hcase

theorem traverse_mem_succ_iff (nodes : List Node) (fuel : ℕ) (u : String) (s e : ℝ)
    (d : ℕ) (x : String) (p : Pos) :
    (x, p) ∈ traverse nodes (fuel + 1) u s e d [] ↔
      ∃ j c, (childrenOf nodes u).get? j = some c ∧
        ((x, p) = (c.id, mkChildPos s e d j (childrenOf nodes u).length) ∨
          (x, p) ∈ traverse nodes fuel c.id
            (mkChildPos s e d j (childrenOf nodes u).length).angleStart
            (mkChildPos s e d j (childrenOf nodes u).length).angleEnd (d + 1) []) := by
  rw [traverse_succ]
  rw [expand_mem_iff (traverse nodes fuel)
    (fun u2 s2 e2 d2 a2 => traverse_append fuel nodes u2 s2 e2 d2 a2) s e d
    (childrenOf nodes u).length (childrenOf nodes u) 0 [] x p]
  simp

/-! ## Acyclicity of the root-reachable tree -/

theorem edge_unique_parent {nodes : List Node} (hnd : (nodes.map Node.id).Nodup)
    {w w2 y : String} (h1 : childEdge nodes w y) (h2 : childEdge nodes w2 y) : w = w2 := by
  obtain ⟨n1, hn1, hp1, hi1⟩ := h1
  obtain ⟨n2, hn2, hp2, hi2⟩ := h2
  have heq : n1 = n2 := id_unique hnd hn1 hn2 (hi1.trans hi2.symm)
  subst heq
  rw [hp1] at hp2
  injection hp2

theorem rtg_comparable {nodes : List Node} (hnd : (nodes.map Node.id).Nodup) :
    ∀ {w a b : String},
      Relation.ReflTransGen (childEdge nodes) a w →
      Relation.ReflTransGen (childEdge nodes) b w →
      Relation.ReflTransGen (childEdge nodes) a b ∨
        Relation.ReflTransGen (childEdge nodes) b a := by
  intro w a b ha
  induction ha with
  | refl => intro hb; exact Or.inr hb
  | tail ha2 hedge ih =>
    intro hb
    rcases Relation.ReflTransGen.cases_tail hb with heq | ⟨w1, hw1, hedge2⟩
    · exact Or.inl (heq ▸ Relation.ReflTransGen.tail ha2 hedge)
    · have hww : w1 = _ := edge_unique_parent hnd hedge2 hedge
      exact ih (hww ▸ hw1)

theorem child_ctx {nodes : List Node} (hnd : (nodes.map Node.id).Nodup)
    {u : String} {V : List String} (hu : u ∈ V)
    (hV : ∀ y, descends nodes u y → y ∉ V) {c : Node}
    (hc : c ∈ childrenOf nodes u) :
    childEdge nodes u c.id ∧ c.id ∉ V ∧
      (∀ y, descends nodes c.id y → y ∉ c.id :: V) := by
  obtain ⟨hcmem, hcpar⟩ := childrenOf_mem hc
  have hedge : childEdge nodes u c.id := ⟨c, hcmem, hcpar, rfl⟩
  have hcV : c.id ∉ V := hV c.id (Relation.TransGen.single hedge)
  refine ⟨hedge, hcV, ?_⟩
  intro y hy
  rw [List.mem_cons]
  push_neg
  constructor
  · intro heq
    subst heq
    obtain ⟨w, hw, hedge2⟩ := Relation.TransGen.tail'_iff.mp hy
    have hwu : w = u := edge_unique_parent hnd hedge2 hedge
    rw [hwu] at hw
    rcases Relation.reflTransGen_iff_eq_or_transGen.mp hw with heq2 | hTG
    · rw [heq2] at hu
      exact hcV hu
    · exact hV u (Relation.TransGen.head hedge hTG) hu
  · exact hV y (Relation.TransGen.head hedge hy)

theorem child_no_self_desc {nodes : List Node} (hnd : (nodes.map Node.id).Nodup)
    {u : String} {V : List String} (hu : u ∈ V)
    (hV : ∀ y, descends nodes u y → y ∉ V) {c : Node}
    (hc : c ∈ childrenOf nodes u) : ¬ descends nodes c.id c.id := by
  intro h
  exact (child_ctx hnd hu hV hc).2.2 c.id h (List.mem_cons_self _ _)

theorem distinct_children_not_desc {nodes : List Node} (hnd : (nodes.map Node.id).Nodup)
    {u : String} {V : List String} (hu : u ∈ V)
    (hV : ∀ y, descends nodes u y → y ∉ V) {c1 c2 : Node}
    (h1 : c1 ∈ childrenOf nodes u) (h2 : c2 ∈ childrenOf nodes u) :
    ¬ descends nodes c1.id c2.id := by
  intro hTG
  obtain ⟨he1, hc1V, _⟩ := child_ctx hnd hu hV h1
  obtain ⟨he2, hc2V, _⟩ := child_ctx hnd hu hV h2
  obtain ⟨w, hw, hedge⟩ := Relation.TransGen.tail'_iff.mp hTG
  have hwu : w = u := edge_unique_parent hnd hedge he2
  rw [hwu] at hw
  rcases Relation.reflTransGen_iff_eq_or_transGen.mp hw with heq | hTG2
  · exact hc1V (heq ▸ hu)
  · exact hV u (Relation.TransGen.head he1 hTG2) hu

theorem distinct_children_desc_disjoint {nodes : List Node}
    (hnd : (nodes.map Node.id).Nodup) {u : String} {V : List String} (hu : u ∈ V)
    (hV : ∀ y, descends nodes u y → y ∉ V) {c1 c2 : Node}
    (h1 : c1 ∈ childrenOf nodes u) (h2 : c2 ∈ childrenOf nodes u)
    (hne : c1.id ≠ c2.id) {y : String} (hy1 : descends nodes c1.id y)
    (hy2 : descends nodes c2.id y) : False := by
  obtain ⟨w1, hw1, he1⟩ := Relation.TransGen.tail'_iff.mp hy1
  obtain ⟨w2, hw2, he2⟩ := Relation.TransGen.tail'_iff.mp hy2
  have hww : w1 = w2 := edge_unique_parent hnd he1 he2
  subst hww
  rcases rtg_comparable hnd hw1 hw2 with h | h
  · rcases Relation.reflTransGen_iff_eq_or_transGen.mp h with heq | hTG
    · exact hne heq.symm
    · exact distinct_children_not_desc hnd hu hV h1 h2 hTG
  · rcases Relation.reflTransGen_iff_eq_or_transGen.mp h with heq | hTG
    · exact hne heq
    · exact distinct_children_not_desc hnd hu hV h2 h1 hTG

theorem children_ids_nodup {nodes : List Node} (hnd : (nodes.map Node.id).Nodup)
    (u : String) : ((childrenOf nodes u).map Node.id).Nodup :=
  List.Nodup.sublist (List.Sublist.map Node.id (List.filter_sublist _)) hnd

theorem children_get_same_id {nodes : List Node} (hnd : (nodes.map Node.id).Nodup)
    {u : String} {j1 j2 : ℕ} {c1 c2 : Node}
    (h1 : (childrenOf nodes u).get? j1 = some c1)
    (h2 : (childrenOf nodes u).get? j2 = some c2)
    (heq : c1.id = c2.id) : j1 = j2 := by
  have hm1 : ((childrenOf nodes u).map Node.id).get? j1 = some c1.id := by
    rw [List.get?_map, h1]
    rfl
  have hm2 : ((childrenOf nodes u).map Node.id).get? j2 = some c2.id := by
    rw [List.get?_map, h2]
    rfl
  have hlt : j1 < ((childrenOf nodes u).map Node.id).length := by
    by_contra hge
    rw [List.get?_eq_none.mpr (by omega)] at hm1
    cases hm1
  refine List.get?_inj hlt (children_ids_nodup hnd u) ?_
  rw [hm1, hm2, heq]

theorem countOutside_congr {nodes : List Node} {S T : List String}
    (h : ∀ y, y ∈ S ↔ y ∈ T) : countOutside nodes S = countOutside nodes T := by
  unfold countOutside
  congr 1
  apply List.filter_congr
  intro n _
  simp [h n.id]

theorem countOutside_cons_lt {nodes : List Node} {V : List String} {c : Node}
    (hc : c ∈ nodes) (hcV : c.id ∉ V) :
    countOutside nodes (c.id :: V) < countOutside nodes V := by
  have hcongr : countOutside nodes (c.id :: V) = countOutside nodes (V ++ [c.id]) :=
    countOutside_congr (by intro y; simp [List.mem_cons, List.mem_append, or_comm])
  rw [hcongr]
  exact countOutside_append_lt ⟨c, hc, rfl⟩ hcV

theorem traverse_mem_desc {nodes : List Node} :
    ∀ (fuel : ℕ) (u : String) (s e : ℝ) (d : ℕ) (x : String) (p : Pos),
      (x, p) ∈ traverse nodes fuel u s e d [] → descends nodes u x := by
  intro fuel
  induction fuel with
  | zero =>
    intro u s e d x p h
    rw [traverse_zero] at h
    cases h
  | succ f ih =>
    intro u s e d x p hmem
    rcases (traverse_mem_succ_iff nodes f u s e d x p).mp hmem with ⟨j, c, hj, hcase⟩
    have hc := List.get?_mem hj
    obtain ⟨hcmem, hcpar⟩ := childrenOf_mem hc
    have hedge : childEdge nodes u c.id := ⟨c, hcmem, hcpar, rfl⟩
    rcases hcase with heq | hin
    · rw [Prod.mk.injEq] at heq
      rw [heq.1]
      exact Relation.TransGen.single hedge
    · exact Relation.TransGen.head hedge (ih c.id _ _ _ x p hin)

theorem traverse_functional {nodes : List Node} (hnd : (nodes.map Node.id).Nodup) :
    ∀ (fuel : ℕ) (u : String) (V : List String) (s e : ℝ) (d : ℕ),
      u ∈ V → (∀ y, descends nodes u y → y ∉ V) →
      ∀ (x : String) (p1 p2 : Pos),
        (x, p1) ∈ traverse nodes fuel u s e d [] →
        (x, p2) ∈ traverse nodes fuel u s e d [] → p1 = p2 := by
  intro fuel
  induction fuel with
  | zero =>
    intro u V s e d _ _ x p1 p2 h1 _
    rw [traverse_zero] at h1
    cases h1
  | succ f ih =>
    intro u V s e d hu hV x p1 p2 h1 h2
    rcases (traverse_mem_succ_iff nodes f u s e d x p1).mp h1 with ⟨j1, c1, hj1, hcase1⟩
    rcases (traverse_mem_succ_iff nodes f u s e d x p2).mp h2 with ⟨j2, c2, hj2, hcase2⟩
    have hc1 := List.get?_mem hj1
    have hc2 := List.get?_mem hj2
    by_cases hcc : c1.id = c2.id
    · have hjj : j1 = j2 := children_get_same_id hnd hj1 hj2 hcc
      subst hjj
      rw [hj1] at hj2
      injection hj2 with hj2
      subst hj2
      rcases hcase1 with heq1 | hin1 <;> rcases hcase2 with heq2 | hin2
      · rw [Prod.mk.injEq] at heq1 heq2
        rw [heq1.2, heq2.2]
      · rw [Prod.mk.injEq] at heq1
        exfalso
        have hdesc := traverse_mem_desc f c1.id _ _ _ x p2 hin2
        rw [heq1.1] at hdesc
        exact child_no_self_desc hnd hu hV hc1 hdesc
      · rw [Prod.mk.injEq] at heq2
        exfalso
        have hdesc := traverse_mem_desc f c1.id _ _ _ x p1 hin1
        rw [heq2.1] at hdesc
        exact child_no_self_desc hnd hu hV hc1 hdesc
      · obtain ⟨hedge, hcV, hV2⟩ := child_ctx hnd hu hV hc1
        exact ih c1.id (c1.id :: V) _ _ _ (List.mem_cons_self _ _) hV2 x p1 p2 hin1 hin2
    · exfalso
      rcases hcase1 with heq1 | hin1 <;> rcases hcase2 with heq2 | hin2
      · rw [Prod.mk.injEq] at heq1 heq2
        exact hcc ((heq1.1.symm.trans heq2.1))
      · rw [Prod.mk.injEq] at heq1
        have hdesc := traverse_mem_desc f c2.id _ _ _ x p2 hin2
        rw [heq1.1] at hdesc
        exact distinct_children_not_desc hnd hu hV hc2 hc1 hdesc
      · rw [Prod.mk.injEq] at heq2
        have hdesc := traverse_mem_desc f c1.id _ _ _ x p1 hin1
        rw [heq2.1] at hdesc
        exact distinct_children_not_desc hnd hu hV hc1 hc2 hdesc
      · have hd1 := traverse_mem_desc f c1.id _ _ _ x p1 hin1
        have hd2 := traverse_mem_desc f c2.id _ _ _ x p2 hin2
        exact distinct_children_desc_disjoint hnd hu hV hc1 hc2 hcc hd1 hd2

theorem traverse_consistent {nodes : List Node} (hnd : (nodes.map Node.id).Nodup) :
    ∀ (fuel : ℕ) (u : String) (V : List String) (s e : ℝ) (d : ℕ),
      u ∈ V → (∀ y, descends nodes u y → y ∉ V) →
      countOutside nodes V < fuel →
      ∀ (x : String) (px : Pos), (x, px) ∈ traverse nodes fuel u s e d [] →
        ∀ (j : ℕ) (c : Node), (childrenOf nodes x).get? j = some c →
          (c.id, mkChildPos px.angleStart px.angleEnd (px.depth + 1) j
            (childrenOf nodes x).length) ∈ traverse nodes fuel u s e d [] := by
  intro fuel
  induction fuel with
  | zero =>
    intro u V s e d _ _ hfuel
    omega
  | succ f ih =>
    intro u V s e d hu hV hfuel x px hmem j c hj
    rcases (traverse_mem_succ_iff nodes f u s e d x px).mp hmem with ⟨j0, c0, hj0, hcase⟩
    have hc0 := List.get?_mem hj0
    obtain ⟨hedge, hc0V, hV2⟩ := child_ctx hnd hu hV hc0
    have hc0mem : c0 ∈ nodes := (childrenOf_mem hc0).1
    have hcount : countOutside nodes (c0.id :: V) < countOutside nodes V :=
      countOutside_cons_lt hc0mem hc0V
    rcases hcase with heq | hin
    · rw [Prod.mk.injEq] at heq
      obtain ⟨hx, hpx⟩ := heq
      subst hx
      subst hpx
      obtain ⟨f2, hf⟩ : ∃ f2, f = f2 + 1 := ⟨f - 1, by omega⟩
      refine (traverse_mem_succ_iff nodes f u s e d c.id _).mpr ⟨j0, c0, hj0, Or.inr ?_⟩
      rw [hf]
      simp only [mkChildPos_depth]
      exact (traverse_mem_succ_iff nodes f2 c0.id
        (mkChildPos s e d j0 (childrenOf nodes u).length).angleStart
        (mkChildPos s e d j0 (childrenOf nodes u).length).angleEnd (d + 1) c.id _).mpr
        ⟨j, c, hj, Or.inl rfl⟩
    · have hsub := ih c0.id (c0.id :: V) _ _ (d + 1) (List.mem_cons_self _ _) hV2
        (by omega) x px hin j c hj
      exact (traverse_mem_succ_iff nodes f u s e d c.id _).mpr ⟨j0, c0, hj0, Or.inr hsub⟩

theorem jsGet_of_mem_of_functional {α : Type} {m : List (String × α)} {k : String}
    {v : α} (hv : (k, v) ∈ m) (huniq : ∀ v2, (k, v2) ∈ m → v2 = v) :
    jsGet m k = some v := by
  induction m with
  | nil => cases hv
  | cons kv rest ih =>
    simp only [jsGet]
    by_cases hk : kv.1 = k
    · rw [if_pos hk]
      have hkv : (k, kv.2) ∈ kv :: rest := by
        rw [show (k, kv.2) = kv from by rw [← hk]]
        exact List.mem_cons_self _ _
      rw [huniq kv.2 hkv]
    · rw [if_neg hk]
      rcases List.mem_cons.mp hv with heq | hv2
      · exfalso
        apply hk
        rw [← heq]
      · exact ih hv2 (fun v2 h2 => huniq v2 (List.mem_cons_of_mem _ h2))

theorem computeLayout_eq {nodes : List Node} {root : Node}
    (hroot : nodes.find? (fun n => n.parentId = none) = some root) :
    computeLayout nodes =
      traverse nodes (nodes.length + 1) root.id 0 (2 * Real.pi) 1
        [(root.id, rootLayoutPos)] := by
  unfold computeLayout
  rw [hroot]

theorem computeLayout_mem_iff {nodes : List Node} {root : Node}
    (hroot : nodes.find? (fun n => n.parentId = none) = some root)
    {x : String} {p : Pos} :
    (x, p) ∈ computeLayout nodes ↔
      (x, p) ∈ traverse nodes (nodes.length + 1) root.id 0 (2 * Real.pi) 1 [] ∨
        (x, p) = (root.id, rootLayoutPos) := by
  rw [computeLayout_eq hroot, traverse_append]
  simp

theorem root_props {nodes : List Node} {root : Node}
    (hroot : nodes.find? (fun n => n.parentId = none) = some root) :
    root ∈ nodes ∧ root.parentId = none := by
  refine ⟨List.mem_of_find?_eq_some hroot, ?_⟩
  have := List.find?_some hroot
  simpa using this

theorem root_no_desc {nodes : List Node} (hnd : (nodes.map Node.id).Nodup)
    {root : Node} (hroot : nodes.find? (fun n => n.parentId = none) = some root) :
    ∀ y, descends nodes root.id y → y ∉ [root.id] := by
  obtain ⟨hm, hp⟩ := root_props hroot
  intro y hy hyV
  rw [List.mem_singleton] at hyV
  subst hyV
  exact not_descends_into_root hnd hm hp root.id hy

theorem computeLayout_functional {nodes : List Node} (hnd : (nodes.map Node.id).Nodup)
    {root : Node} (hroot : nodes.find? (fun n => n.parentId = none) = some root)
    {x : String} {p1 p2 : Pos} (h1 : (x, p1) ∈ computeLayout nodes)
    (h2 : (x, p2) ∈ computeLayout nodes) : p1 = p2 := by
  obtain ⟨hm, hp⟩ := root_props hroot
  rcases (computeLayout_mem_iff hroot).mp h1 with h1 | h1 <;>
    rcases (computeLayout_mem_iff hroot).mp h2 with h2 | h2
  · exact traverse_functional hnd (nodes.length + 1) root.id [root.id] 0 (2 * Real.pi) 1
      (List.mem_singleton_self _) (root_no_desc hnd hroot) x p1 p2 h1 h2
  · exfalso
    rw [Prod.mk.injEq] at h2
    have hdesc := traverse_mem_desc (nodes.length + 1) root.id 0 (2 * Real.pi) 1 x p1 h1
    rw [h2.1] at hdesc
    exact not_descends_into_root hnd hm hp root.id hdesc
  · exfalso
    rw [Prod.mk.injEq] at h1
    have hdesc := traverse_mem_desc (nodes.length + 1) root.id 0 (2 * Real.pi) 1 x p2 h2
    rw [h1.1] at hdesc
    exact not_descends_into_root hnd hm hp root.id hdesc
  · rw [Prod.mk.injEq] at h1 h2
    rw [h1.2, h2.2]

theorem computeLayout_get {nodes : List Node} (hnd : (nodes.map Node.id).Nodup)
    {root : Node} (hroot : nodes.find? (fun n => n.parentId = none) = some root)
    {x : String} {p : Pos} (hmem : (x, p) ∈ computeLayout nodes) :
    jsGet (computeLayout nodes) x = some p :=
  jsGet_of_mem_of_functional hmem (fun p2 h2 => computeLayout_functional hnd hroot h2 hmem)

theorem computeLayout_child_entry {nodes : List Node}
    (hnd : (nodes.map Node.id).Nodup) {root : Node}
    (hroot : nodes.find? (fun n => n.parentId = none) = some root)
    {x : String} {px : Pos} (hx : jsGet (computeLayout nodes) x = some px)
    {j : ℕ} {c : Node} (hj : (childrenOf nodes x).get? j = some c) :
    jsGet (computeLayout nodes) c.id =
      some (mkChildPos px.angleStart px.angleEnd (px.depth + 1) j
        (childrenOf nodes x).length) := by
  have hmem := jsGet_mem hx
  have hfuel : countOutside nodes [root.id] < nodes.length + 1 := by
    have := List.length_filter_le (fun n => decide (n.id ∉ [root.id])) nodes
    unfold countOutside
    omega
  rcases (computeLayout_mem_iff hroot).mp hmem with htrav | hpair
  · have hentry := traverse_consistent hnd (nodes.length + 1) root.id [root.id] 0
      (2 * Real.pi) 1 (List.mem_singleton_self _) (root_no_desc hnd hroot) hfuel
      x px htrav j c hj
    exact computeLayout_get hnd hroot ((computeLayout_mem_iff hroot).mpr (Or.inl hentry))
  · rw [Prod.mk.injEq] at hpair
    obtain ⟨hx2, hpx⟩ := hpair
    subst hx2
    subst hpx
    have hentry : (c.id, mkChildPos 0 (2 * Real.pi) 1 j
        (childrenOf nodes root.id).length) ∈
        traverse nodes (nodes.length + 1) root.id 0 (2 * Real.pi) 1 [] :=
      (traverse_mem_succ_iff nodes nodes.length root.id 0 (2 * Real.pi) 1 c.id _).mpr
        ⟨j, c, hj, Or.inl rfl⟩
    exact computeLayout_get hnd hroot ((computeLayout_mem_iff hroot).mpr (Or.inl hentry))

/-- C1: computeLayout implements the radial recursive angular partition.
A collection with no root yields the empty position map; the root is
assigned x 0, y 0, depth 0 and the sector 0 to two pi; and whenever a node
carries position px, its child number j out of total children (in
collection order) is assigned exactly the position of the traversal body:
the sub-sector from px.angleStart plus the sector span times j over total
to the same with j plus one, midpoint angle, radius depth times
LEVEL_SPACING with depth one more than the depth px records, x the cosine
and y the sine of the angle times the radius. -/
theorem computeLayout_radial (nodes : List Node) (hnd : (nodes.map Node.id).Nodup) :
    (nodes.find? (fun n => n.parentId = none) = none → computeLayout nodes = []) ∧
    (∀ root, nodes.find? (fun n => n.parentId = none) = some root →
      jsGet (computeLayout nodes) root.id = some rootLayoutPos) ∧
    (∀ x px, jsGet (computeLayout nodes) x = some px →
      ∀ j c, (childrenOf nodes x).get? j = some c →
        jsGet (computeLayout nodes) c.id =
          some (mkChildPos px.angleStart px.angleEnd (px.depth + 1) j
            (childrenOf nodes x).length)) := by
  refine ⟨?_, ?_, ?_⟩
  · intro h
    unfold computeLayout
    rw [h]
  · intro root hroot
    exact computeLayout_get hnd hroot ((computeLayout_mem_iff hroot).mpr (Or.inr rfl))
  · intro x px hx j c hj
    cases hfind : nodes.find? (fun n => n.parentId = none) with
    | none =>
      exfalso
      unfold computeLayout at hx
      rw [hfind] at hx
      simp [jsGet] at hx
    | some root => exact computeLayout_child_entry hnd hfind hx hj

/-- Witness for C1 at the seed tree. -/
theorem computeLayout_radial_witness :
    (INITIAL_NODES.map Node.id).Nodup ∧
    ((INITIAL_NODES.find? (fun n => n.parentId = none) = none →
        computeLayout INITIAL_NODES = []) ∧
      (∀ root, INITIAL_NODES.find? (fun n => n.parentId = none) = some root →
        jsGet (computeLayout INITIAL_NODES) root.id = some rootLayoutPos) ∧
      (∀ x px, jsGet (computeLayout INITIAL_NODES) x = some px →
        ∀ j c, (childrenOf INITIAL_NODES x).get? j = some c →
          jsGet (computeLayout INITIAL_NODES) c.id =
            some (mkChildPos px.angleStart px.angleEnd (px.depth + 1) j
              (childrenOf INITIAL_NODES x).length))) :=
  ⟨by decide, computeLayout_radial INITIAL_NODES (by decide)⟩

/-- C5: the child sub-sectors exactly tile the sector of the expanded node:
the first child starts at the parent sector start, the last child ends at
the parent sector end, and each child sector ends where the next one
starts. -/
theorem layout_sector_tiling (nodes : List Node) (hnd : (nodes.map Node.id).Nodup)
    (x : String) (px : Pos) (hx : jsGet (computeLayout nodes) x = some px)
    (hn1 : 1 ≤ (childrenOf nodes x).length) :
    (∀ c, (childrenOf nodes x).get? 0 = some c →
      ∃ pc, jsGet (computeLayout nodes) c.id = some pc ∧
        pc.angleStart = px.angleStart) ∧
    (∀ c, (childrenOf nodes x).get? ((childrenOf nodes x).length - 1) = some c →
      ∃ pc, jsGet (computeLayout nodes) c.id = some pc ∧
        pc.angleEnd = px.angleEnd) ∧
    (∀ j c c2, (childrenOf nodes x).get? j = some c →
      (childrenOf nodes x).get? (j + 1) = some c2 →
      ∃ pc pc2, jsGet (computeLayout nodes) c.id = some pc ∧
        jsGet (computeLayout nodes) c2.id = some pc2 ∧
        pc.angleEnd = pc2.angleStart) := by
  cases hfind : nodes.find? (fun n => n.parentId = none) with
  | none =>
    exfalso
    unfold computeLayout at hx
    rw [hfind] at hx
    simp [jsGet] at hx
  | some root =>
    refine ⟨?_, ?_, ?_⟩
    · intro c h0
      refine ⟨_, computeLayout_child_entry hnd hfind hx h0, ?_⟩
      rw [mkChildPos_angleStart]
      simp
    · intro c hn
      refine ⟨_, computeLayout_child_entry hnd hfind hx hn, ?_⟩
      rw [mkChildPos_angleEnd]
      have hcast : ((((childrenOf nodes x).length - 1 : ℕ) : ℝ) + 1) =
          ((childrenOf nodes x).length : ℝ) := by
        have h2 : (childrenOf nodes x).length - 1 + 1 = (childrenOf nodes x).length := by
          omega
        rw [← h2]
        push_cast
        ring
      rw [hcast]
      have hne : ((childrenOf nodes x).length : ℝ) ≠ 0 :=
        Nat.cast_ne_zero.mpr (by omega)
      field_simp
    · intro j c c2 hj hj2
      refine ⟨_, _, computeLayout_child_entry hnd hfind hx hj,
        computeLayout_child_entry hnd hfind hx hj2, ?_⟩
      rw [mkChildPos_angleEnd, mkChildPos_angleStart]
      push_cast
      ring

/-- Witness for C5: the root of the seed tree with its two children. -/
theorem layout_sector_tiling_witness :
    ((INITIAL_NODES.map Node.id).Nodup ∧
      jsGet (computeLayout INITIAL_NODES) "root" = some rootLayoutPos ∧
      1 ≤ (childrenOf INITIAL_NODES "root").length) ∧
    ((∀ c, (childrenOf INITIAL_NODES "root").get? 0 = some c →
      ∃ pc, jsGet (computeLayout INITIAL_NODES) c.id = some pc ∧
        pc.angleStart = rootLayoutPos.angleStart) ∧
    (∀ c, (childrenOf INITIAL_NODES "root").get?
        ((childrenOf INITIAL_NODES "root").length - 1) = some c →
      ∃ pc, jsGet (computeLayout INITIAL_NODES) c.id = some pc ∧
        pc.angleEnd = rootLayoutPos.angleEnd) ∧
    (∀ j c c2, (childrenOf INITIAL_NODES "root").get? j = some c →
      (childrenOf INITIAL_NODES "root").get? (j + 1) = some c2 →
      ∃ pc pc2, jsGet (computeLayout INITIAL_NODES) c.id = some pc ∧
        jsGet (computeLayout INITIAL_NODES) c2.id = some pc2 ∧
        pc.angleEnd = pc2.angleStart)) := by
  have hroot : INITIAL_NODES.find? (fun n => n.parentId = none) =
      some ⟨"root", "Open Mind Map", none⟩ := by decide
  have hnd : (INITIAL_NODES.map Node.id).Nodup := by decide
  have hx : jsGet (computeLayout INITIAL_NODES) "root" = some rootLayoutPos :=
    computeLayout_get hnd hroot ((computeLayout_mem_iff hroot).mpr (Or.inr rfl))
  exact ⟨⟨hnd, hx, by decide⟩,
    layout_sector_tiling INITIAL_NODES hnd "root" rootLayoutPos hx (by decide)⟩

/-- Counterexample for C4 as literally stated: in a reachable state holding
only the root with the counter at 3 (as after adding two children and
deleting both branches), the maximum matched suffix is 0, so the claim
predicts the next id node-1; addChild instead creates node-3 from the
counter, which is not rescanned after deletions. -/
theorem natDigits_small {n : ℕ} (h : n < 10) : natDigits n = [digitChar n] := by
  rw [natDigits]
  rw [dif_pos h]

theorem addChild_id_sequence_cex :
    (addChildOn ⟨[⟨"root", "r", none⟩], [], "root", 3⟩ "root").nodes ≠
      [(⟨"root", "r", none⟩ : Node)] ++
        [⟨mkNodeId (specMaxSuffix [⟨"root", "r", none⟩] + 1), "", some "root"⟩] := by
  have e3 : mkNodeId 3 = "node-3" := by
    unfold mkNodeId
    rw [natDigits_small (by norm_num)]
    decide
  have espec : specMaxSuffix [(⟨"root", "r", none⟩ : Node)] = 0 := by decide
  have e1 : mkNodeId (specMaxSuffix [(⟨"root", "r", none⟩ : Node)] + 1) = "node-1" := by
    rw [espec]
    unfold mkNodeId
    rw [natDigits_small (by norm_num)]
    decide
  have hfire := @addChildOn_fires ⟨[⟨"root", "r", none⟩], [], "root", 3⟩ "root" (by decide)
  rw [hfire]
  show [(⟨"root", "r", none⟩ : Node)] ++ [⟨mkNodeId 3, "", some "root"⟩] ≠ _
  rw [e3, e1]
  decide
